import Mathlib

/-!
Verification development for the fused Mixture-of-Experts dispatch/compute engine of
`lmdeploy/pytorch/kernels/cuda/fused_moe.py`.

The embedding is exact-arithmetic (values in `ℚ`): tensors become functions
`Nat → ℚ` / `Nat → Nat → ℚ`, the triton kernels become pure Lean functions that
produce explicit lists of stores (address/value pairs), and buffers are updated by
folding those stores over an initial buffer.  The dtype cast performed on write
(`accumulator.to(A.dtype.element_ty)`) is kept as an explicit `castStore` function
parameter; the exact model instantiates it with the identity.  The external
activation `silu_and_mul` (out of scope per the repository layout, consumed as an
elementwise `(T, 2d) → (T, d)` transform) is modelled as a binary function
parameter `actF`, applied pairwise as `out[r][j] = actF (x[r][j]) (x[r][d+j])`,
which is the pairing the real `silu_and_mul` uses.  `torch.argsort` (external,
called without `stable=True`) is modelled by its contract `IsArgsortOf`:
the result is a permutation of `[0, L)` along which the keys are ascending.
-/

namespace FusedMoE

/-- Ceiling division, as `triton.cdiv`. -/
def cdiv (a b : Nat) : Nat := (a + b - 1) / b

/-- Smallest power of two that is `≥ n` (as `triton.next_power_of_2`; maps `0` to `0`). -/
def nextPow2 (n : Nat) : Nat :=
  if n ≤ 1 then n else 2 * nextPow2 (cdiv n 2)
decreasing_by simp [cdiv]; omega

/-- One autotune configuration from `get_cuda_autotune_config`. -/
structure KernelCfg where
  BLOCK_SIZE_M : Nat
  BLOCK_SIZE_N : Nat
  BLOCK_SIZE_K : Nat
  GROUP_SIZE_M : Nat
  num_stages : Nat
  num_warps : Nat
deriving DecidableEq, Repr

/-- The config space of `get_cuda_autotune_config` (the autotuner picks one of these). -/
def cudaAutotuneConfigs : List KernelCfg :=
  [⟨128, 128, 32, 1, 4, 4⟩, ⟨64, 256, 32, 1, 4, 4⟩, ⟨64, 128, 64, 1, 4, 4⟩]

/-- Arguments of `fused_moe_kernel` (tensors as functions, strides implicit/contiguous). -/
structure KernelArgs where
  A : Nat → Nat → ℚ
  B : Nat → Nat → Nat → ℚ
  sortedIdx : List Nat
  expStart : List Nat
  expEnd : List Nat
  weights : Nat → ℚ
  N : Nat
  K : Nat
  enableWeights : Bool
  topK : Nat
  expertOffset : Nat
  reindexA : Bool
  reindexC : Bool
  castStore : ℚ → ℚ

/-- The `pid -> (pid_m, pid_n)` decode at the top of `fused_moe_kernel`
(`GROUP_SIZE_M == 1` is the plain row-major split, otherwise grouped ordering). -/
def pidDecode (cfg : KernelCfg) (numPidM numPidN pid : Nat) : Nat × Nat :=
  if cfg.GROUP_SIZE_M = 1 then (pid % numPidM, pid / numPidM)
  else
    let numPidInGroup := cfg.GROUP_SIZE_M * numPidN
    let groupId := pid / numPidInGroup
    let firstPidM := groupId * cfg.GROUP_SIZE_M
    let groupSizeM := min (numPidM - firstPidM) cfg.GROUP_SIZE_M
    (firstPidM + pid % groupSizeM, (pid % numPidInGroup) / groupSizeM)

/-- The blocked `K`-loop of `fused_moe_kernel`: accumulate the dot product in
`BLOCK_SIZE_K`-sized tiles, masked loads beyond `K` contributing `0`. -/
def dotBlocks (a b : Nat → ℚ) (K BK : Nat) : ℚ :=
  (List.range (cdiv K BK)).foldl
    (fun acc kk =>
      acc + ∑ t ∈ Finset.range BK,
        (if kk * BK + t < K then a (kk * BK + t) else 0) *
        (if kk * BK + t < K then b (kk * BK + t) else 0)) 0

/-- One `(expert, pid)` compute unit of `fused_moe_kernel`, as the list of stores
`(c_row, c_col, value)` it performs.  Mirrors the triton source: read the segment
bounds, early-return on an empty segment or an out-of-range tile, gather
`sorted_idx`, optionally reindex the `A`-row by `sid // top_k`, accumulate the
blocked dot product, optionally scale by the gating weight at `sid`, cast, and
store at the sorted position (`reindex_c = False`) or scattered to `sid`. -/
def kernelUnit (args : KernelArgs) (cfg : KernelCfg) (M_NP2 expId pid : Nat) :
    List (Nat × Nat × ℚ) :=
  let expStart := args.expStart.getD (expId + args.expertOffset) 0
  let expEnd := args.expEnd.getD (expId + args.expertOffset) 0
  if (expEnd : Int) - (expStart : Int) ≤ 0 then [] else
  let M := expEnd - expStart
  let numPidM := cdiv M_NP2 cfg.BLOCK_SIZE_M
  let numPidN := cdiv args.N cfg.BLOCK_SIZE_N
  let pm := (pidDecode cfg numPidM numPidN pid).1
  let pn := (pidDecode cfg numPidM numPidN pid).2
  if M ≤ pm * cfg.BLOCK_SIZE_M ∨ args.N ≤ pn * cfg.BLOCK_SIZE_N then [] else
  ((List.range cfg.BLOCK_SIZE_M).filter
      (fun i => expStart + pm * cfg.BLOCK_SIZE_M + i < expEnd)).flatMap
    (fun i =>
      let offsSid := expStart + pm * cfg.BLOCK_SIZE_M + i
      let sid := args.sortedIdx.getD offsSid 0
      let offsAm := if args.reindexA then sid / args.topK else offsSid
      let offsCm := if args.reindexC then sid else offsSid
      (List.range cfg.BLOCK_SIZE_N).map
        (fun j =>
          let col := (pn * cfg.BLOCK_SIZE_N + j) % args.N
          let acc := dotBlocks (fun k => args.A offsAm k) (fun k => args.B expId col k)
            args.K cfg.BLOCK_SIZE_K
          let acc := if args.enableWeights then acc * args.weights sid else acc
          (offsCm, col, args.castStore acc)))

/-- Memory addresses a `fused_moe_kernel` unit reads (for the frame property):
segment-bound loads, `sorted_idx` loads, `A`/`B` tile loads, gating-weight loads.
Masked-out lanes of `tl.load` do not touch memory and are not listed. -/
inductive KLoad
  | start (i : Nat)
  | stop (i : Nat)
  | sorted (i : Nat)
  | a (r k : Nat)
  | b (e n k : Nat)
  | w (i : Nat)
deriving DecidableEq, Repr

/-- The loads performed by one `(expert, pid)` unit of `fused_moe_kernel`, in program
order: the two segment-bound loads always happen; everything else only when the
segment is nonempty and the tile is in range. -/
def kernelUnitLoads (args : KernelArgs) (cfg : KernelCfg) (M_NP2 expId pid : Nat) :
    List KLoad :=
  let ia := expId + args.expertOffset
  let expStart := args.expStart.getD ia 0
  let expEnd := args.expEnd.getD ia 0
  [KLoad.start ia, KLoad.stop ia] ++
  (if (expEnd : Int) - (expStart : Int) ≤ 0 then [] else
   let M := expEnd - expStart
   let numPidM := cdiv M_NP2 cfg.BLOCK_SIZE_M
   let numPidN := cdiv args.N cfg.BLOCK_SIZE_N
   let pm := (pidDecode cfg numPidM numPidN pid).1
   let pn := (pidDecode cfg numPidM numPidN pid).2
   if M ≤ pm * cfg.BLOCK_SIZE_M ∨ args.N ≤ pn * cfg.BLOCK_SIZE_N then [] else
   let lanes := (List.range cfg.BLOCK_SIZE_M).filter
       (fun i => expStart + pm * cfg.BLOCK_SIZE_M + i < expEnd)
   (lanes.map (fun i => KLoad.sorted (expStart + pm * cfg.BLOCK_SIZE_M + i))) ++
   ((List.range (cdiv args.K cfg.BLOCK_SIZE_K)).flatMap (fun kk =>
     (lanes.flatMap (fun i =>
       let offsSid := expStart + pm * cfg.BLOCK_SIZE_M + i
       let sid := args.sortedIdx.getD offsSid 0
       let offsAm := if args.reindexA then sid / args.topK else offsSid
       ((List.range cfg.BLOCK_SIZE_K).filter (fun t => kk * cfg.BLOCK_SIZE_K + t < args.K)).map
         (fun t => KLoad.a offsAm (kk * cfg.BLOCK_SIZE_K + t)))) ++
     (((List.range cfg.BLOCK_SIZE_K).filter (fun t => kk * cfg.BLOCK_SIZE_K + t < args.K)).flatMap
       (fun t => (List.range cfg.BLOCK_SIZE_N).map
         (fun j => KLoad.b expId ((pn * cfg.BLOCK_SIZE_N + j) % args.N)
           (kk * cfg.BLOCK_SIZE_K + t)))))) ++
   (if args.enableWeights then
      lanes.map (fun i => KLoad.w (args.sortedIdx.getD (expStart + pm * cfg.BLOCK_SIZE_M + i) 0))
    else []))

/-- Apply a list of stores to a buffer (later stores win; in the kernel all stores to
one address carry equal values, so the order is immaterial). -/
def applyStores (l : List (Nat × Nat × ℚ)) (C : Nat → Nat → ℚ) : Nat → Nat → ℚ :=
  l.foldl (fun C s => fun r c => if r = s.1 ∧ c = s.2.1 then s.2.2 else C r c) C

/-- The 2-D launch grid of `fused_moe_kernel_launcher`: axis 0 enumerates
`cdiv(M_NP2, BM) * cdiv(N, BN)` tiles, axis 1 the `E` experts. -/
def launcherGrid0 (cfg : KernelCfg) (M_NP2 N : Nat) : Nat :=
  cdiv M_NP2 cfg.BLOCK_SIZE_M * cdiv N cfg.BLOCK_SIZE_N

/-- All stores of one launch of `fused_moe_kernel` over the whole grid. -/
def launcherStores (args : KernelArgs) (cfg : KernelCfg) (E M_NP2 : Nat) :
    List (Nat × Nat × ℚ) :=
  (List.range E).flatMap fun e =>
    (List.range (launcherGrid0 cfg M_NP2 args.N)).flatMap fun pid =>
      kernelUnit args cfg M_NP2 e pid

/-- `fused_moe_kernel_launcher`: computes `M_NP2 = max(64, next_power_of_2(num_tokens))`
and applies the stores of the whole grid to the destination buffer. -/
def fusedMoeKernelLauncher (args : KernelArgs) (cfg : KernelCfg) (E numTokens : Nat)
    (C0 : Nat → Nat → ℚ) : Nat → Nat → ℚ :=
  applyStores (launcherStores args cfg E (max 64 (nextPow2 numTokens))) C0

/-- Expert key of flat assignment slot `x` (`TopkIdx[x]`). -/
def keyOf (ids : List Nat) (x : Nat) : Nat := ids.getD x 0

/-- The masked key read of `_start_end_kernel` at sorted position `j`:
positions beyond `len_sorted_idx` read `num_experts` (the `other=` value),
in-range positions read `TopkIdx[SortedIdx[j]]`. -/
def seKeyAt (ids p : List Nat) (numE j : Nat) : Nat :=
  if j < p.length then keyOf ids (p.getD j 0) else numE

/-- One block step of the scan loop of `_start_end_kernel`: add the match count
of the current block; if the running count just became positive, record the
position of the first match of this block (`tl.argmax` of the boolean match mask,
first-true wins, `0` on an all-false mask). -/
def seStep (ids p : List Nat) (numE e BLOCK : Nat) (st : Int × Nat) (b : Nat) :
    Int × Nat :=
  let base := b * BLOCK
  let blockCnt := (List.range BLOCK).countP (fun t => seKeyAt ids p numE (base + t) == e)
  let cnt := st.2 + blockCnt
  let es := if 0 < cnt ∧ st.1 < 0 then
      ((base + (match (List.range BLOCK).find?
          (fun t => seKeyAt ids p numE (base + t) == e) with
        | some t => t
        | none => 0) : Nat) : Int)
    else st.1
  (es, cnt)

/-- `_start_end_kernel` for one expert `e`: scan `sorted_idx` in `BLOCK`-sized blocks,
counting matches and recording the position of the first match; an expert with no
matches gets `start = 0`, and `end = start + cnt`. -/
def startEndKernel (ids p : List Nat) (numE BLOCK e : Nat) : Nat × Nat :=
  let res := (List.range (cdiv p.length BLOCK)).foldl (seStep ids p numE e BLOCK)
    ((-1 : Int), 0)
  let es : Nat := if res.1 < 0 then 0 else res.1.toNat
  (es, es + res.2)

/-- `get_start_end`: run `_start_end_kernel` (with `BLOCK = 128`) for every expert,
collecting the per-expert `start`/`end` tables. -/
def getStartEnd (ids p : List Nat) (numE : Nat) : List Nat × List Nat :=
  ((List.range numE).map fun e => (startEndKernel ids p numE 128 e).1,
   (List.range numE).map fun e => (startEndKernel ids p numE 128 e).2)

/-- The contract of `torch.argsort` on the flattened expert ids (called without
`stable=True`): the result is a permutation of `[0, L)` along which the keys are
ascending.  Tie order among equal keys is _not_ part of the contract. -/
def IsArgsortOf (ids p : List Nat) : Prop :=
  p.Perm (List.range ids.length) ∧ (p.map (keyOf ids)).Sorted (· ≤ ·)

instance (ids p : List Nat) : Decidable (IsArgsortOf ids p) := by
  unfold IsArgsortOf; infer_instance

/-- `_get_sorted_idx`: argsort the flattened assignment ids (modelled by the external
`argsortF`), then compute per-expert segment bounds. -/
def getSortedIdx (ids : List Nat) (numE : Nat) (argsortF : List Nat → List Nat) :
    List Nat × List Nat × List Nat :=
  let p := argsortF ids
  let se := getStartEnd ids p numE
  (p, se.1, se.2)

/-- `_renormalize`: divide the `top_k` gating weights of each token by their sum when the
flag is set (the contiguity fix-up of the source is a no-op in this model). -/
def renormalizeW (tw : Nat → Nat → ℚ) (topk : Nat) (renormalize : Bool) :
    Nat → Nat → ℚ :=
  if renormalize then fun t s => tw t s / ∑ j ∈ Finset.range topk, tw t j else tw

/-- `_make_intermediate`: a zero-filled buffer when `zeros`, otherwise uninitialized
memory, modelled as an ambient junk buffer. -/
def makeIntermediate (zeros : Bool) (junk : Nat → Nat → ℚ) : Nat → Nat → ℚ :=
  if zeros then (fun _ _ => 0) else junk

/-- The `zeros` flag `fused_moe` passes to both `_make_intermediate` calls:
`full_exp = (num_experts == E)` (with `num_experts` defaulting to `E`), and the
buffers are zero-filled iff `not full_exp`. -/
def moeZerosFlag (E : Nat) (numExperts : Option Nat) : Bool :=
  !(numExperts.getD E == E)

/-- One call to `fused_moe`.  Shapes: `hidden` is `(Mtok, K)`, `w1` is `(E, 2*N2, K)`,
`w2` is `(E, D, N2)`, `topkWeights` is `(Mtok, topk)`, `topkIds` is the flattened
`(Mtok*topk)` assignment list.  `argsortF` models `torch.argsort`, `cfg1`/`cfg2` the
autotuner pick for each launch, `junk1`/`junk2` the uninitialized contents of the
two intermediate buffers, and `actF` the external `silu_and_mul`. -/
structure MoeCall where
  Mtok : Nat
  topk : Nat
  E : Nat
  N2 : Nat
  K : Nat
  D : Nat
  hidden : Nat → Nat → ℚ
  w1 : Nat → Nat → Nat → ℚ
  w2 : Nat → Nat → Nat → ℚ
  topkWeights : Nat → Nat → ℚ
  topkIds : List Nat
  expertOffset : Nat
  numExperts : Option Nat
  renormalize : Bool
  argsortF : List Nat → List Nat
  cfg1 : KernelCfg
  cfg2 : KernelCfg
  junk1 : Nat → Nat → ℚ
  junk2 : Nat → Nat → ℚ
  actF : ℚ → ℚ → ℚ

/-- `num_experts = E if num_experts is None` default of `fused_moe`. -/
def moeNumE (mc : MoeCall) : Nat := mc.numExperts.getD mc.E

/-- The flat view of the (renormalized) gating weights, as the kernel reads them
through `Weights + sid` (`sid = token * top_k + slot`). -/
def moeTwFlat (mc : MoeCall) : Nat → ℚ :=
  fun i => renormalizeW mc.topkWeights mc.topk mc.renormalize (i / mc.topk) (i % mc.topk)

/-- `sorted_idx, exp_start, exp_end = _get_sorted_idx(topk_ids, num_experts)`. -/
def moeSorted (mc : MoeCall) : List Nat × List Nat × List Nat :=
  getSortedIdx mc.topkIds (moeNumE mc) mc.argsortF

/-- Arguments of the first (`gate and up`) kernel launch of `fused_moe`:
`enable_weights=False, top_k=topk, reindex_a=True, reindex_c=False`. -/
def moeArgs1 (mc : MoeCall) : KernelArgs :=
  { A := mc.hidden, B := mc.w1, sortedIdx := (moeSorted mc).1,
    expStart := (moeSorted mc).2.1, expEnd := (moeSorted mc).2.2,
    weights := moeTwFlat mc, N := 2 * mc.N2, K := mc.K, enableWeights := false,
    topK := mc.topk, expertOffset := mc.expertOffset, reindexA := true,
    reindexC := false, castStore := id }

/-- `intermediate_cache1` after the first kernel launch (flattened to `(Mtok*topk, 2*N2)`). -/
def moeCache1 (mc : MoeCall) : Nat → Nat → ℚ :=
  fusedMoeKernelLauncher (moeArgs1 mc) mc.cfg1 mc.E mc.Mtok
    (makeIntermediate (moeZerosFlag mc.E mc.numExperts) mc.junk1)

/-- `gate_cache = silu_and_mul(intermediate_cache1)`, with the external activation
as the elementwise pair transform `actF`. -/
def moeGate (mc : MoeCall) : Nat → Nat → ℚ :=
  fun r j => mc.actF (moeCache1 mc r j) (moeCache1 mc r (mc.N2 + j))

/-- Arguments of the second (`down`) kernel launch of `fused_moe`:
`enable_weights=True, top_k=1, reindex_a=False, reindex_c=True`. -/
def moeArgs2 (mc : MoeCall) : KernelArgs :=
  { A := moeGate mc, B := mc.w2, sortedIdx := (moeSorted mc).1,
    expStart := (moeSorted mc).2.1, expEnd := (moeSorted mc).2.2,
    weights := moeTwFlat mc, N := mc.D, K := mc.N2, enableWeights := true,
    topK := 1, expertOffset := mc.expertOffset, reindexA := false,
    reindexC := true, castStore := id }

/-- `intermediate_cache2` after the second kernel launch (flattened to `(Mtok*topk, D)`). -/
def moeCache2 (mc : MoeCall) : Nat → Nat → ℚ :=
  fusedMoeKernelLauncher (moeArgs2 mc) mc.cfg2 mc.E mc.Mtok
    (makeIntermediate (moeZerosFlag mc.E mc.numExperts) mc.junk2)

/-- `fused_moe`: the two kernel launches around the activation, then
`ret = intermediate_cache2.sum(dim=1)`. -/
def fusedMoe (mc : MoeCall) : Nat → Nat → ℚ :=
  fun t d => ∑ s ∈ Finset.range mc.topk, moeCache2 mc (t * mc.topk + s) d

/-- Validity of a `fused_moe` call for the functional-correctness claims:
an autotune config for each launch, flattened ids of the right length with
in-range expert ids that are distinct across the top-k slots of each token,
an argsort result satisfying the `torch.argsort` contract, and the full-expert
(unsharded, default-argument) configuration `expert_offset=0, num_experts=None`. -/
structure MoeValid (mc : MoeCall) : Prop where
  hcfg1 : mc.cfg1 ∈ cudaAutotuneConfigs
  hcfg2 : mc.cfg2 ∈ cudaAutotuneConfigs
  hlen : mc.topkIds.length = mc.Mtok * mc.topk
  hids : ∀ x ∈ mc.topkIds, x < mc.E
  hdist : ∀ t < mc.Mtok, ∀ s1 < mc.topk, ∀ s2 < mc.topk, s1 ≠ s2 →
    mc.topkIds.getD (t * mc.topk + s1) 0 ≠ mc.topkIds.getD (t * mc.topk + s2) 0
  hsorted : IsArgsortOf mc.topkIds (mc.argsortF mc.topkIds)
  hoff : mc.expertOffset = 0
  hnum : mc.numExperts = none

/-- The naive reference computation of the numeric-equivalence claim: for each
token and each of its top-k slots, gather the `w1` matrix of the assigned expert,
multiply, apply the gated activation, multiply by the `w2` matrix of that expert,
scale by the gating weight of the slot, and sum over the top-k slots.
(Spec-side definition, written from the words of the claim.) -/
def naiveMoe (topk N2 K : Nat)
    (hidden : Nat → Nat → ℚ) (w1 w2 : Nat → Nat → Nat → ℚ)
    (topkWeights : Nat → Nat → ℚ) (topkIds : List Nat) (actF : ℚ → ℚ → ℚ) :
    Nat → Nat → ℚ :=
  fun t d => ∑ s ∈ Finset.range topk,
    topkWeights t s *
      ∑ k2 ∈ Finset.range N2,
        actF (∑ k ∈ Finset.range K, hidden t k * w1 (topkIds.getD (t * topk + s) 0) k2 k)
             (∑ k ∈ Finset.range K, hidden t k * w1 (topkIds.getD (t * topk + s) 0) (N2 + k2) k)
          * w2 (topkIds.getD (t * topk + s) 0) d k2

/-- Spec-side description of the gate/up pass: reindex-on-read enabled (the input
row is recovered as `sorted_idx[j] // top_k`), reindex-on-write disabled (the
output row is the segment position `j` itself), gating weights not applied.
(Written from the words of the spec, for refinement comparison.) -/
def specGateUp (ids p : List Nat) (E topk K : Nat)
    (hidden : Nat → Nat → ℚ) (w1 : Nat → Nat → Nat → ℚ) : Nat → Nat → ℚ :=
  fun j n => ∑ k ∈ Finset.range K,
    hidden (p.getD j 0 / topk) k * w1 (seKeyAt ids p E j) n k

/-- Spec-side description of the down pass: reindex-on-read disabled (the operand
row is the segment position `j` itself), reindex-on-write enabled (the result is
scattered to the original flat-assignment row `sorted_idx[j]`), and the gating
weight of that flat row is applied.  (Written from the words of the spec, for
refinement comparison.) -/
def specDown (ids p : List Nat) (E N2 : Nat) (A2 : Nat → Nat → ℚ)
    (w2 : Nat → Nat → Nat → ℚ) (twFlat : Nat → ℚ) : Nat → Nat → ℚ :=
  fun j d => twFlat (p.getD j 0) *
    ∑ k2 ∈ Finset.range N2, A2 j k2 * w2 (seKeyAt ids p E j) d k2

/-- Matches of expert `e` among the masked keys below position `m`. -/
def cntBelow (ids p : List Nat) (numE e m : Nat) : Nat :=
  (List.range m).countP (fun j => seKeyAt ids p numE j == e)

/-- First match position of expert `e` below position `m`, if any. -/
def firstBelow (ids p : List Nat) (numE e m : Nat) : Option Nat :=
  (List.range m).find? (fun j => seKeyAt ids p numE j == e)

/-- The set of sorted positions assigned to expert `e`. -/
def segMatches (ids p : List Nat) (numE e : Nat) : Finset Nat :=
  (Finset.range p.length).filter (fun j => seKeyAt ids p numE j = e)

/-- Value a `fused_moe_kernel` unit stores for segment position `pos` and output
column `col` of expert `expId` (the same for every tile that stores that cell). -/
def kuVal (args : KernelArgs) (cfg : KernelCfg) (expId pos col : Nat) : ℚ :=
  let sid := args.sortedIdx.getD pos 0
  let offsAm := if args.reindexA then sid / args.topK else pos
  let acc := dotBlocks (fun k => args.A offsAm k) (fun k => args.B expId col k)
    args.K cfg.BLOCK_SIZE_K
  let acc := if args.enableWeights then acc * args.weights sid else acc
  args.castStore acc

/-- Destination row of the store for segment position `pos` (`reindex_c` selects
scatter through `sorted_idx` versus segment order). -/
def kuRow (args : KernelArgs) (pos : Nat) : Nat :=
  if args.reindexC then args.sortedIdx.getD pos 0 else pos

/-- Number of stores a launch performs into destination cell `(r, c)`. -/
def storeCount (l : List (Nat × Nat × ℚ)) (r c : Nat) : Nat :=
  l.countP (fun s => s.1 == r && s.2.1 == c)

/-- A concrete `fused_moe` call for instantiating the theorems: 4 tokens,
`top_k = 2`, 3 experts, hidden width 8 (the reference case of the spec). -/
def mcW : MoeCall :=
  { Mtok := 4, topk := 2, E := 3, N2 := 2, K := 8, D := 2,
    hidden := fun t k => (t : ℚ) + (k : ℚ) + 1,
    w1 := fun e n k => (e : ℚ) + (n : ℚ) + (k : ℚ),
    w2 := fun e d k2 => (e : ℚ) * (d : ℚ) + (k2 : ℚ) + 1,
    topkWeights := fun t s => (t : ℚ) + (s : ℚ) + 1,
    topkIds := [0, 1, 1, 2, 2, 0, 0, 2],
    expertOffset := 0, numExperts := none, renormalize := false,
    argsortF := fun _ => [0, 5, 6, 1, 2, 3, 4, 7],
    cfg1 := ⟨128, 128, 32, 1, 4, 4⟩, cfg2 := ⟨64, 256, 32, 1, 4, 4⟩,
    junk1 := fun _ _ => 7, junk2 := fun _ _ => 7,
    actF := fun g u => g * u }

/-- Concrete kernel arguments for instantiating the per-unit theorems. -/
def argsW : KernelArgs :=
  { A := fun _ _ => 1, B := fun _ _ _ => 1, sortedIdx := [0], expStart := [0],
    expEnd := [1], weights := fun _ => 2, N := 1, K := 1, enableWeights := true,
    topK := 1, expertOffset := 0, reindexA := false, reindexC := false,
    castStore := id }

/-- Concrete kernel arguments with an empty (malformed, `end < start`) segment. -/
def argsW2 : KernelArgs :=
  { A := fun _ _ => 1, B := fun _ _ _ => 1, sortedIdx := [0], expStart := [5],
    expEnd := [3], weights := fun _ => 2, N := 1, K := 1, enableWeights := true,
    topK := 1, expertOffset := 0, reindexA := false, reindexC := false,
    castStore := id }

/-- A concrete overfull-segment launch: 64 tokens, `top_k = 3`, every flat slot
assigned to expert 0, so the single segment has 192 rows while the grid only
covers `max 64 (nextPow2 64) = 64` rows per expert. -/
def idsC3 : List Nat := List.replicate 192 0

/-- The (sorted) identity permutation for `idsC3` (all keys equal). -/
def pC3 : List Nat := List.range 192

/-- Kernel arguments of the overfull-segment launch (gate/up style:
`reindex_c = False`). -/
def argsC3 : KernelArgs :=
  { A := fun _ _ => 1, B := fun _ _ _ => 1, sortedIdx := pC3,
    expStart := (getStartEnd idsC3 pC3 1).1, expEnd := (getStartEnd idsC3 pC3 1).2,
    weights := fun _ => 1, N := 128, K := 1, enableWeights := false, topK := 3,
    expertOffset := 0, reindexA := true, reindexC := false, castStore := id }

/-! ### Arithmetic helpers -/

lemma le_nextPow2 (n : Nat) : n ≤ nextPow2 n := by
  induction n using Nat.strong_induction_on with
  | _ n ih =>
    rw [nextPow2]
    split
    · exact Nat.le_refl n
    · rename_i h
      have hlt : cdiv n 2 < n := by unfold cdiv; omega
      have h1 := ih (cdiv n 2) hlt
      have h2 : n ≤ 2 * cdiv n 2 := by unfold cdiv; omega
      omega

lemma le_cdiv_mul (n b : Nat) (hb : 0 < b) : n ≤ cdiv n b * b := by
  rw [cdiv, Nat.mul_comm]
  have h2 : (n + b - 1) % b < b := Nat.mod_lt _ hb
  rw [Nat.eq_sub_of_add_eq (Nat.div_add_mod (n + b - 1) b)]
  omega

lemma div_lt_cdiv (x n b : Nat) (hb : 0 < b) (hx : x < n) : x / b < cdiv n b := by
  rw [Nat.div_lt_iff_lt_mul hb]
  exact Nat.lt_of_lt_of_le hx (le_cdiv_mul n b hb)

lemma cdiv_pos (n b : Nat) (hn : 0 < n) (hb : 0 < b) : 0 < cdiv n b := by
  simpa using div_lt_cdiv 0 n b hb hn

lemma cdiv_mul_of_dvd (n b : Nat) (hb : 0 < b) (h : b ∣ n) : cdiv n b * b = n := by
  obtain ⟨m, rfl⟩ := h
  rw [cdiv]
  have h1 : b * m + b - 1 = b * m + (b - 1) := by
    have hbm : 0 ≤ b * m := Nat.zero_le _
    omega
  rw [h1, Nat.mul_add_div hb, Nat.div_eq_of_lt (by omega), Nat.add_zero, Nat.mul_comm]

/-! ### Sum and fold helpers -/

lemma foldl_add_eq_sum {M : Type*} [AddCommMonoid M] (g : Nat → M) (n : Nat) (init : M) :
    (List.range n).foldl (fun acc b => acc + g b) init
      = init + ∑ b ∈ Finset.range n, g b := by
  induction n with
  | zero => simp
  | succ n ih =>
    rw [List.range_succ, List.foldl_append, ih, Finset.sum_range_succ]
    simp [add_assoc]

lemma sum_map_range {M : Type*} [AddCommMonoid M] (f : Nat → M) (n : Nat) :
    ((List.range n).map f).sum = ∑ i ∈ Finset.range n, f i := by
  induction n with
  | zero => rfl
  | succ n ih =>
    rw [List.range_succ, List.map_append, List.sum_append, ih, Finset.sum_range_succ]
    simp

lemma dotBlocks_eq (a b : Nat → ℚ) (K BK : Nat) (hBK : 0 < BK) :
    dotBlocks a b K BK = ∑ k ∈ Finset.range K, a k * b k := by
  unfold dotBlocks
  rw [foldl_add_eq_sum, zero_add]
  have h1 : ∀ nb : Nat,
      (∑ kk ∈ Finset.range nb, ∑ t ∈ Finset.range BK,
        (if kk * BK + t < K then a (kk * BK + t) else 0) *
        (if kk * BK + t < K then b (kk * BK + t) else 0))
      = ∑ k ∈ Finset.range (nb * BK),
          (if k < K then a k else 0) * (if k < K then b k else 0) := by
    intro nb
    induction nb with
    | zero => simp
    | succ nb ih =>
      rw [Finset.sum_range_succ, ih, Nat.succ_mul, Finset.sum_range_add]
  rw [h1]
  have h2 : K ≤ cdiv K BK * BK := le_cdiv_mul K BK hBK
  have h3 : ∑ k ∈ Finset.range (cdiv K BK * BK),
      (if k < K then a k else 0) * (if k < K then b k else 0)
      = ∑ k ∈ Finset.range K, (if k < K then a k else 0) * (if k < K then b k else 0) :=
    (Finset.sum_subset (Finset.range_subset.mpr h2) (by
      intro k _ hk
      rw [Finset.mem_range] at hk
      simp [hk])).symm
  rw [h3]
  refine Finset.sum_congr rfl ?_
  intro k hk
  rw [Finset.mem_range] at hk
  simp [hk]

/-! ### Store application helpers -/

lemma applyStores_cons (s : Nat × Nat × ℚ) (l : List (Nat × Nat × ℚ)) (C : Nat → Nat → ℚ) :
    applyStores (s :: l) C
      = applyStores l (fun r c => if r = s.1 ∧ c = s.2.1 then s.2.2 else C r c) := rfl

lemma applyStores_eq_init (l : List (Nat × Nat × ℚ)) (C : Nat → Nat → ℚ) (r c : Nat)
    (h : ∀ s ∈ l, ¬(s.1 = r ∧ s.2.1 = c)) : applyStores l C r c = C r c := by
  induction l generalizing C with
  | nil => rfl
  | cons s t ih =>
    rw [applyStores_cons, ih _ (fun x hx => h x (List.mem_cons_of_mem s hx))]
    have hs := h s (List.mem_cons_self s t)
    show (if r = s.1 ∧ c = s.2.1 then s.2.2 else C r c) = C r c
    rw [if_neg]
    intro hc
    exact hs ⟨hc.1.symm, hc.2.symm⟩

lemma applyStores_eq_val (l : List (Nat × Nat × ℚ)) (C : Nat → Nat → ℚ) (r c : Nat) (v : ℚ)
    (hall : ∀ s ∈ l, s.1 = r → s.2.1 = c → s.2.2 = v)
    (hex : ∃ s ∈ l, s.1 = r ∧ s.2.1 = c) : applyStores l C r c = v := by
  induction l generalizing C with
  | nil =>
    rcases hex with ⟨s, hs, _⟩
    cases hs
  | cons s t ih =>
    rw [applyStores_cons]
    by_cases ht : ∃ x ∈ t, x.1 = r ∧ x.2.1 = c
    · exact ih _ (fun x hx => hall x (List.mem_cons_of_mem s hx)) ht
    · have hmatch : s.1 = r ∧ s.2.1 = c := by
        rcases hex with ⟨x, hx, hxm⟩
        rcases List.mem_cons.mp hx with rfl | hx'
        · exact hxm
        · exact absurd ⟨x, hx', hxm⟩ ht
      rw [applyStores_eq_init _ _ _ _ (fun x hx hxm => ht ⟨x, hx, hxm⟩)]
      show (if r = s.1 ∧ c = s.2.1 then s.2.2 else C r c) = v
      rw [if_pos ⟨hmatch.1.symm, hmatch.2.symm⟩]
      exact hall s (List.mem_cons_self s t) hmatch.1 hmatch.2

/-! ### Counting helpers -/

lemma countP_flatMap {α β : Type*} (l : List α) (f : α → List β) (q : β → Bool) :
    (l.flatMap f).countP q = (l.map (fun a => (f a).countP q)).sum := by
  induction l with
  | nil => rfl
  | cons a t ih => simp [List.flatMap_cons, List.countP_append, ih]

lemma countP_range_eq_card_filter (P : Nat → Prop) [DecidablePred P] (L : Nat) :
    (List.range L).countP (fun j => decide (P j)) = ((Finset.range L).filter P).card := by
  induction L with
  | zero => rfl
  | succ L ih =>
    rw [List.range_succ, List.countP_append, Finset.range_succ, Finset.filter_insert]
    by_cases h : P L
    · rw [if_pos h, Finset.card_insert_of_not_mem (by simp)]
      simp [h, ih]
    · rw [if_neg h]
      simp [h, ih]

lemma find?_range_eq_some (P : Nat → Prop) [DecidablePred P] (L x : Nat) :
    (List.range L).find? (fun j => decide (P j)) = some x
      ↔ x < L ∧ P x ∧ ∀ y < x, ¬ P y := by
  induction L generalizing x with
  | zero => simp
  | succ L ih =>
    rw [List.range_succ, List.find?_append]
    rcases h : (List.range L).find? (fun j => decide (P j)) with _ | y
    · have hnone : ∀ j < L, ¬ P j := by
        intro j hj
        have := List.find?_eq_none.mp h j (by simpa using hj)
        simpa using this
      rw [Option.none_or]
      by_cases hPL : P L
      · rw [List.find?_cons_of_pos _ (by simpa using hPL)]
        constructor
        · intro hx
          have hx' : L = x := by simpa using hx
          subst hx'
          exact ⟨Nat.lt_succ_self L, hPL, hnone⟩
        · rintro ⟨hx1, hx2, hx3⟩
          have hxL : x = L := by
            rcases Nat.lt_succ_iff_lt_or_eq.mp hx1 with h' | h'
            · exact absurd hx2 (hnone x h')
            · exact h'
          simp [hxL]
      · rw [List.find?_cons_of_neg _ (by simpa using hPL)]
        simp only [List.find?_nil]
        constructor
        · intro hx
          cases hx
        · rintro ⟨hx1, hx2, hx3⟩
          rcases Nat.lt_succ_iff_lt_or_eq.mp hx1 with h' | h'
          · exact absurd hx2 (hnone x h')
          · subst h'
            exact absurd hx2 hPL
    · have hor : (some y).or ([L].find? fun j => decide (P j)) = some y := rfl
      rw [hor]
      have hy := (ih y).mp h
      constructor
      · intro hx
        have hyx : y = x := by simpa using hx
        subst hyx
        exact ⟨Nat.lt_succ_of_lt hy.1, hy.2.1, hy.2.2⟩
      · rintro ⟨hx1, hx2, hx3⟩
        have hxy : x = y := by
          rcases Nat.lt_trichotomy x y with h' | h' | h'
          · exact absurd hx2 (hy.2.2 x h')
          · exact h'
          · exact absurd hy.2.1 (hx3 y h')
        simp [hxy]

/-! ### Segment builder: characterization of `_start_end_kernel` -/

lemma cntBelow_add (ids p : List Nat) (numE e m n : Nat) :
    cntBelow ids p numE e (m + n)
      = cntBelow ids p numE e m
        + (List.range n).countP (fun t => seKeyAt ids p numE (m + t) == e) := by
  unfold cntBelow
  rw [List.range_add, List.countP_append, List.countP_map]
  rfl

lemma firstBelow_add (ids p : List Nat) (numE e m n : Nat) :
    firstBelow ids p numE e (m + n)
      = (firstBelow ids p numE e m).or
          (((List.range n).find? (fun t => seKeyAt ids p numE (m + t) == e)).map
            (fun t => m + t)) := by
  unfold firstBelow
  rw [List.range_add, List.find?_append, List.find?_map]
  rfl

lemma seStep_fold (ids p : List Nat) (numE e BLOCK : Nat) (nb : Nat) :
    (List.range nb).foldl (seStep ids p numE e BLOCK) ((-1 : Int), 0)
      = ((match firstBelow ids p numE e (nb * BLOCK) with
          | some j => (j : Int)
          | none => -1),
         cntBelow ids p numE e (nb * BLOCK)) := by
  induction nb with
  | zero => simp [firstBelow, cntBelow]
  | succ nb ih =>
    rw [List.range_succ, List.foldl_append, ih]
    show seStep ids p numE e BLOCK _ nb = _
    unfold seStep
    have hm : (nb + 1) * BLOCK = nb * BLOCK + BLOCK := by ring
    rw [hm, cntBelow_add, firstBelow_add]
    rcases hfb : firstBelow ids p numE e (nb * BLOCK) with _ | j
    · have hcnt0 : cntBelow ids p numE e (nb * BLOCK) = 0 := by
        unfold cntBelow
        rw [List.countP_eq_zero]
        intro a ha
        exact List.find?_eq_none.mp hfb a ha
      rcases hbf : (List.range BLOCK).find?
          (fun t => seKeyAt ids p numE (nb * BLOCK + t) == e) with _ | t
      · have hbc : (List.range BLOCK).countP
            (fun t => seKeyAt ids p numE (nb * BLOCK + t) == e) = 0 := by
          rw [List.countP_eq_zero]
          intro a ha
          exact List.find?_eq_none.mp hbf a ha
        simp [hfb, hbf, hcnt0, hbc]
      · have hbc : 0 < (List.range BLOCK).countP
            (fun t => seKeyAt ids p numE (nb * BLOCK + t) == e) := by
          rw [List.countP_pos_iff]
          have hp := List.find?_some hbf
          exact ⟨t, List.mem_of_find?_eq_some hbf, hp⟩
        simp [hfb, hbf, hcnt0, hbc]
    · have hj0 : ¬ ((j : Int) < 0) := by
        exact Int.not_lt.mpr (Int.natCast_nonneg j)
      simp [hfb, hj0]

lemma seKeyAt_ge (ids p : List Nat) (numE j : Nat) (hj : p.length ≤ j) :
    seKeyAt ids p numE j = numE := by
  unfold seKeyAt
  rw [if_neg (by omega)]

lemma cntBelow_of_le (ids p : List Nat) (numE e : Nat) (he : e < numE) {m : Nat}
    (hm : p.length ≤ m) :
    cntBelow ids p numE e m = cntBelow ids p numE e p.length := by
  have h : m = p.length + (m - p.length) := by omega
  rw [h, cntBelow_add]
  have hz : (List.range (m - p.length)).countP
      (fun t => seKeyAt ids p numE (p.length + t) == e) = 0 := by
    rw [List.countP_eq_zero]
    intro a ha
    rw [seKeyAt_ge ids p numE _ (Nat.le_add_right _ _)]
    simp
    omega
  rw [hz, Nat.add_zero]

lemma firstBelow_of_le (ids p : List Nat) (numE e : Nat) (he : e < numE) {m : Nat}
    (hm : p.length ≤ m) :
    firstBelow ids p numE e m = firstBelow ids p numE e p.length := by
  have h : m = p.length + (m - p.length) := by omega
  rw [h, firstBelow_add]
  have hnone : (List.range (m - p.length)).find?
      (fun t => seKeyAt ids p numE (p.length + t) == e) = none := by
    rw [List.find?_eq_none]
    intro a ha
    rw [seKeyAt_ge ids p numE _ (Nat.le_add_right _ _)]
    simp
    omega
  rw [hnone]
  cases firstBelow ids p numE e p.length <;> rfl

lemma firstBelow_eq_some (ids p : List Nat) (numE e m x : Nat) :
    firstBelow ids p numE e m = some x
      ↔ x < m ∧ seKeyAt ids p numE x = e ∧ ∀ y < x, seKeyAt ids p numE y ≠ e := by
  unfold firstBelow
  have hpred : (fun j => seKeyAt ids p numE j == e)
      = (fun j => decide (seKeyAt ids p numE j = e)) := by
    funext j
    rw [Bool.eq_iff_iff]
    simp
  rw [hpred, find?_range_eq_some]

lemma startEndKernel_eq (ids p : List Nat) (numE e : Nat) (he : e < numE) :
    startEndKernel ids p numE 128 e
      = ((match firstBelow ids p numE e p.length with
          | some j => j
          | none => 0),
         (match firstBelow ids p numE e p.length with
          | some j => j
          | none => 0) + (segMatches ids p numE e).card) := by
  unfold startEndKernel
  rw [seStep_fold]
  have hge : p.length ≤ cdiv p.length 128 * 128 := le_cdiv_mul _ _ (by norm_num)
  rw [cntBelow_of_le ids p numE e he hge, firstBelow_of_le ids p numE e he hge]
  have hcard : cntBelow ids p numE e p.length = (segMatches ids p numE e).card := by
    unfold cntBelow segMatches
    rw [← countP_range_eq_card_filter]
    apply List.countP_congr
    intro a _
    rw [Bool.eq_iff_iff]
    simp
  rcases firstBelow ids p numE e p.length with _ | j <;> simp [hcard]

lemma seKeyAt_mono (ids p : List Nat) (numE : Nat)
    (hsort : (p.map (keyOf ids)).Sorted (· ≤ ·)) {i j : Nat}
    (hij : i ≤ j) (hj : j < p.length) :
    seKeyAt ids p numE i ≤ seKeyAt ids p numE j := by
  have hi : i < p.length := Nat.lt_of_le_of_lt hij hj
  rcases Nat.eq_or_lt_of_le hij with rfl | hlt
  · exact Nat.le_refl _
  · have hpair := List.pairwise_iff_get.mp hsort
      ⟨i, by simpa using hi⟩ ⟨j, by simpa using hj⟩ (by simpa using hlt)
    simp only [List.get_eq_getElem, List.getElem_map] at hpair
    unfold seKeyAt
    rw [if_pos hi, if_pos hj, List.getD_eq_getElem _ _ hi, List.getD_eq_getElem _ _ hj]
    exact hpair

lemma segMatches_eq_Ico (ids p : List Nat) (numE e : Nat)
    (hsort : (p.map (keyOf ids)).Sorted (· ≤ ·)) {f : Nat}
    (hf : firstBelow ids p numE e p.length = some f) :
    segMatches ids p numE e
      = Finset.Ico f (f + (segMatches ids p numE e).card) := by
  obtain ⟨hfL, hfkey, hfmin⟩ := (firstBelow_eq_some ids p numE e p.length f).mp hf
  have hmemS : ∀ x, x ∈ segMatches ids p numE e
      ↔ x < p.length ∧ seKeyAt ids p numE x = e := by
    intro x
    unfold segMatches
    rw [Finset.mem_filter, Finset.mem_range]
  have hfS : f ∈ segMatches ids p numE e := (hmemS f).mpr ⟨hfL, hfkey⟩
  have hne : (segMatches ids p numE e).Nonempty := ⟨f, hfS⟩
  obtain ⟨g, hgdef⟩ : ∃ g, (segMatches ids p numE e).max' hne = g := ⟨_, rfl⟩
  have hgS : g ∈ segMatches ids p numE e := hgdef ▸ Finset.max'_mem _ hne
  have hgL : g < p.length := ((hmemS _).mp hgS).1
  have hgkey : seKeyAt ids p numE g = e := ((hmemS _).mp hgS).2
  have hfg : f ≤ g := hgdef ▸ Finset.le_max' _ f hfS
  have hIcc : segMatches ids p numE e = Finset.Icc f g := by
    apply Finset.ext
    intro x
    rw [Finset.mem_Icc, hmemS]
    constructor
    · rintro ⟨hxL, hxkey⟩
      refine ⟨?_, hgdef ▸ Finset.le_max' _ x ((hmemS x).mpr ⟨hxL, hxkey⟩)⟩
      by_contra hlt
      exact hfmin x (by omega) hxkey
    · rintro ⟨hfx, hxg⟩
      have hxL : x < p.length := Nat.lt_of_le_of_lt hxg hgL
      refine ⟨hxL, ?_⟩
      have h1 := seKeyAt_mono ids p numE hsort hfx hxL
      have h2 := seKeyAt_mono ids p numE hsort hxg hgL
      omega
  have hcard : (segMatches ids p numE e).card = g + 1 - f := by
    rw [hIcc, Nat.card_Icc]
  have heq : f + (segMatches ids p numE e).card = g + 1 := by omega
  rw [heq, Nat.Ico_succ_right]
  exact hIcc

lemma segment_mem_iff (ids p : List Nat) (numE e : Nat)
    (hsort : (p.map (keyOf ids)).Sorted (· ≤ ·)) (he : e < numE)
    {j : Nat} (hj : j < p.length) :
    ((startEndKernel ids p numE 128 e).1 ≤ j ∧ j < (startEndKernel ids p numE 128 e).2)
      ↔ seKeyAt ids p numE j = e := by
  rw [startEndKernel_eq ids p numE e he]
  rcases hfb : firstBelow ids p numE e p.length with _ | f
  · have hempty : segMatches ids p numE e = ∅ := by
      unfold segMatches
      rw [Finset.filter_eq_empty_iff]
      intro x hx
      rw [Finset.mem_range] at hx
      have := List.find?_eq_none.mp hfb x (by simpa using hx)
      simpa using this
    simp only [hfb, hempty, Finset.card_empty]
    constructor
    · rintro ⟨h1, h2⟩
      omega
    · intro hkey
      have hjS : j ∈ segMatches ids p numE e := by
        unfold segMatches
        rw [Finset.mem_filter, Finset.mem_range]
        exact ⟨hj, hkey⟩
      rw [hempty] at hjS
      cases hjS
  · have hIco := segMatches_eq_Ico ids p numE e hsort hfb
    simp only [hfb]
    constructor
    · rintro ⟨h1, h2⟩
      have hjS : j ∈ segMatches ids p numE e := by
        rw [hIco, Finset.mem_Ico]
        exact ⟨h1, h2⟩
      unfold segMatches at hjS
      rw [Finset.mem_filter] at hjS
      exact hjS.2
    · intro hkey
      have hjS : j ∈ segMatches ids p numE e := by
        unfold segMatches
        rw [Finset.mem_filter, Finset.mem_range]
        exact ⟨hj, hkey⟩
      rw [hIco, Finset.mem_Ico] at hjS
      exact hjS

lemma startEndKernel_sub (ids p : List Nat) (numE e : Nat) (he : e < numE) :
    (startEndKernel ids p numE 128 e).2 - (startEndKernel ids p numE 128 e).1
      = (segMatches ids p numE e).card ∧
    (startEndKernel ids p numE 128 e).1 ≤ (startEndKernel ids p numE 128 e).2 := by
  rw [startEndKernel_eq ids p numE e he]
  rcases firstBelow ids p numE e p.length with _ | f <;> simp

lemma segEnd_le_length (ids p : List Nat) (numE e : Nat)
    (hsort : (p.map (keyOf ids)).Sorted (· ≤ ·)) (he : e < numE) :
    (startEndKernel ids p numE 128 e).2 ≤ p.length := by
  rw [startEndKernel_eq ids p numE e he]
  rcases hfb : firstBelow ids p numE e p.length with _ | f
  · have hempty : segMatches ids p numE e = ∅ := by
      unfold segMatches
      rw [Finset.filter_eq_empty_iff]
      intro x hx
      rw [Finset.mem_range] at hx
      have := List.find?_eq_none.mp hfb x (by simpa using hx)
      simpa using this
    simp [hempty]
  · have hIco := segMatches_eq_Ico ids p numE e hsort hfb
    have hsub : ∀ x ∈ segMatches ids p numE e, x < p.length := by
      intro x hx
      unfold segMatches at hx
      rw [Finset.mem_filter, Finset.mem_range] at hx
      exact hx.1
    simp only
    rcases Nat.eq_zero_or_pos (segMatches ids p numE e).card with hc | hc
    · rw [hc]
      obtain ⟨hfL, _, _⟩ := (firstBelow_eq_some ids p numE e p.length f).mp hfb
      omega
    · have hx : f + (segMatches ids p numE e).card - 1
          ∈ Finset.Ico f (f + (segMatches ids p numE e).card) := by
        rw [Finset.mem_Ico]
        omega
      rw [← hIco] at hx
      have := hsub _ hx
      omega

lemma segment_empty_zero (ids p : List Nat) (numE e : Nat) (he : e < numE)
    (hcard : (segMatches ids p numE e).card = 0) :
    startEndKernel ids p numE 128 e = (0, 0) := by
  have hempty : segMatches ids p numE e = ∅ := Finset.card_eq_zero.mp hcard
  have hfb : firstBelow ids p numE e p.length = none := by
    unfold firstBelow
    rw [List.find?_eq_none]
    intro a ha
    rw [List.mem_range] at ha
    intro hbeq
    have hkey : seKeyAt ids p numE a = e := by simpa using hbeq
    have : a ∈ segMatches ids p numE e := by
      unfold segMatches
      rw [Finset.mem_filter, Finset.mem_range]
      exact ⟨ha, hkey⟩
    rw [hempty] at this
    cases this
  rw [startEndKernel_eq ids p numE e he, hfb, hcard]

/-! ### Permutation facts about `sorted_idx` -/

lemma sortedIdx_getD_inj (ids p : List Nat) (hperm : p.Perm (List.range ids.length))
    {j j' : Nat} (hj : j < p.length) (hj' : j' < p.length)
    (h : p.getD j 0 = p.getD j' 0) : j = j' := by
  have hnodup : p.Nodup := hperm.nodup_iff.mpr (List.nodup_range _)
  rw [List.getD_eq_getElem _ _ hj, List.getD_eq_getElem _ _ hj'] at h
  exact hnodup.getElem_inj_iff.mp h

lemma sortedIdx_bij (ids p : List Nat) (hperm : p.Perm (List.range ids.length)) :
    ∀ i < ids.length, ∃! j, j < p.length ∧ p.getD j 0 = i := by
  intro i hi
  have hmem : i ∈ p := hperm.mem_iff.mpr (by rw [List.mem_range]; exact hi)
  obtain ⟨j, hjlen, hji⟩ := List.mem_iff_getElem.mp hmem
  refine ⟨j, ⟨hjlen, by rw [List.getD_eq_getElem _ _ hjlen]; exact hji⟩, ?_⟩
  rintro j' ⟨hj'len, hj'i⟩
  exact sortedIdx_getD_inj ids p hperm hj'len hjlen
    (by rw [hj'i, List.getD_eq_getElem _ _ hjlen, hji])

lemma sortedIdx_getD_lt (ids p : List Nat) (hperm : p.Perm (List.range ids.length))
    {j : Nat} (hj : j < p.length) : p.getD j 0 < ids.length := by
  have hmem : p.getD j 0 ∈ p := by
    rw [List.getD_eq_getElem _ _ hj]
    exact List.getElem_mem _
  have := hperm.mem_iff.mp hmem
  rwa [List.mem_range] at this

lemma seKeyAt_lt (ids p : List Nat) (numE : Nat)
    (hperm : p.Perm (List.range ids.length))
    (hids : ∀ x ∈ ids, x < numE) {j : Nat} (hj : j < p.length) :
    seKeyAt ids p numE j < numE := by
  unfold seKeyAt
  rw [if_pos hj]
  unfold keyOf
  have hlt : p.getD j 0 < ids.length := sortedIdx_getD_lt ids p hperm hj
  apply hids
  rw [List.getD_eq_getElem _ _ hlt]
  exact List.getElem_mem _

/-! ### Segment cardinality bound from distinct per-token assignments -/

lemma list_eq_map_getD (p : List Nat) :
    p = (List.range p.length).map (fun j => p.getD j 0) := by
  induction p with
  | nil => rfl
  | cons a t ih =>
    rw [List.length_cons, List.range_succ_eq_map, List.map_cons, List.map_map]
    have hcomp : ((fun j => (a :: t).getD j 0) ∘ Nat.succ) = fun j => t.getD j 0 := by
      funext j
      rfl
    rw [hcomp]
    rw [← ih]
    rfl

lemma countP_positions_eq (p : List Nat) (q : Nat → Bool) :
    (List.range p.length).countP (fun j => q (p.getD j 0)) = p.countP q := by
  conv_rhs => rw [list_eq_map_getD p]
  rw [List.countP_map]
  rfl

lemma segCard_le_tokens (ids p : List Nat) (numE e Mtok topk : Nat)
    (hperm : p.Perm (List.range ids.length))
    (hL : ids.length = Mtok * topk)
    (hdist : ∀ t < Mtok, ∀ s1 < topk, ∀ s2 < topk, s1 ≠ s2 →
      ids.getD (t * topk + s1) 0 ≠ ids.getD (t * topk + s2) 0) :
    (segMatches ids p numE e).card ≤ Mtok := by
  have hlen : p.length = ids.length := by simpa using hperm.length_eq
  have hbridge : (segMatches ids p numE e).card
      = ((Finset.range ids.length).filter (fun i => ids.getD i 0 = e)).card := by
    unfold segMatches
    rw [← countP_range_eq_card_filter, ← countP_range_eq_card_filter]
    have h1 : (List.range p.length).countP (fun j => decide (seKeyAt ids p numE j = e))
        = (List.range p.length).countP (fun j => (fun x => ids.getD x 0 == e) (p.getD j 0)) := by
      apply List.countP_congr
      intro a ha
      rw [List.mem_range] at ha
      unfold seKeyAt keyOf
      rw [if_pos ha, Bool.eq_iff_iff]
      simp
    have h2 : (List.range p.length).countP
        (fun j => (fun x => ids.getD x 0 == e) (p.getD j 0))
        = p.countP (fun x => ids.getD x 0 == e) :=
      countP_positions_eq p (fun x => ids.getD x 0 == e)
    rw [h1, h2, hperm.countP_eq]
    apply List.countP_congr
    intro a _
    rw [Bool.eq_iff_iff]
    simp
  rw [hbridge]
  rcases Nat.eq_zero_or_pos topk with htz | htpos
  · subst htz
    rw [Nat.mul_zero] at hL
    rw [hL]
    simp
  · have hmain : ((Finset.range ids.length).filter (fun i => ids.getD i 0 = e)).card
        ≤ (Finset.range Mtok).card := by
      apply Finset.card_le_card_of_injOn (fun i => i / topk)
      · intro i hi
        rw [Finset.mem_filter, Finset.mem_range] at hi
        rw [Finset.mem_range, Nat.div_lt_iff_lt_mul htpos]
        rw [hL] at hi
        exact hi.1
      · intro i hi i2 hi2 heq
        rw [Finset.coe_filter] at hi hi2
        simp only [Set.mem_setOf_eq, Finset.mem_range] at hi hi2
        have heq2 : i / topk = i2 / topk := heq
        have hi' : i / topk * topk + i % topk = i := by
          rw [Nat.mul_comm]
          exact Nat.div_add_mod i topk
        have hi2' : i / topk * topk + i2 % topk = i2 := by
          rw [Nat.mul_comm, heq2]
          exact Nat.div_add_mod i2 topk
        have hm1 : i % topk < topk := Nat.mod_lt _ htpos
        have hm2 : i2 % topk < topk := Nat.mod_lt _ htpos
        by_contra hne
        have hsne : i % topk ≠ i2 % topk := by
          intro hs
          apply hne
          omega
        have htlt : i / topk < Mtok := by
          rw [Nat.div_lt_iff_lt_mul htpos]
          rw [hL] at hi
          exact hi.1
        have hkey := hdist (i / topk) htlt (i % topk) hm1 (i2 % topk) hm2 hsne
        apply hkey
        rw [hi', hi2', hi.2, hi2.2]
    simpa using hmain

/-! ### Kernel unit store characterization -/

lemma kernelUnit_store_mem (args : KernelArgs) (cfg : KernelCfg) (M_NP2 expId pid : Nat)
    (i j : Nat)
    (hgm : (pidDecode cfg (cdiv M_NP2 cfg.BLOCK_SIZE_M) (cdiv args.N cfg.BLOCK_SIZE_N) pid).1
        * cfg.BLOCK_SIZE_M
      < args.expEnd.getD (expId + args.expertOffset) 0
        - args.expStart.getD (expId + args.expertOffset) 0)
    (hgn : (pidDecode cfg (cdiv M_NP2 cfg.BLOCK_SIZE_M) (cdiv args.N cfg.BLOCK_SIZE_N) pid).2
        * cfg.BLOCK_SIZE_N < args.N)
    (hi : i < cfg.BLOCK_SIZE_M)
    (hlane : args.expStart.getD (expId + args.expertOffset) 0
        + (pidDecode cfg (cdiv M_NP2 cfg.BLOCK_SIZE_M) (cdiv args.N cfg.BLOCK_SIZE_N) pid).1
          * cfg.BLOCK_SIZE_M + i
      < args.expEnd.getD (expId + args.expertOffset) 0)
    (hj : j < cfg.BLOCK_SIZE_N) :
    (kuRow args (args.expStart.getD (expId + args.expertOffset) 0
        + (pidDecode cfg (cdiv M_NP2 cfg.BLOCK_SIZE_M) (cdiv args.N cfg.BLOCK_SIZE_N) pid).1
          * cfg.BLOCK_SIZE_M + i),
     ((pidDecode cfg (cdiv M_NP2 cfg.BLOCK_SIZE_M) (cdiv args.N cfg.BLOCK_SIZE_N) pid).2
          * cfg.BLOCK_SIZE_N + j) % args.N,
     kuVal args cfg expId
       (args.expStart.getD (expId + args.expertOffset) 0
        + (pidDecode cfg (cdiv M_NP2 cfg.BLOCK_SIZE_M) (cdiv args.N cfg.BLOCK_SIZE_N) pid).1
          * cfg.BLOCK_SIZE_M + i)
       (((pidDecode cfg (cdiv M_NP2 cfg.BLOCK_SIZE_M) (cdiv args.N cfg.BLOCK_SIZE_N) pid).2
          * cfg.BLOCK_SIZE_N + j) % args.N))
      ∈ kernelUnit args cfg M_NP2 expId pid := by
  unfold kernelUnit
  rw [if_neg (by omega), if_neg (by omega)]
  apply List.mem_flatMap.mpr
  refine ⟨i, List.mem_filter.mpr ⟨List.mem_range.mpr hi, by simpa using hlane⟩, ?_⟩
  apply List.mem_map.mpr
  exact ⟨j, List.mem_range.mpr hj, rfl⟩

lemma kernelUnit_store_shape (args : KernelArgs) (cfg : KernelCfg)
    (M_NP2 expId pid : Nat) (s : Nat × Nat × ℚ)
    (hs : s ∈ kernelUnit args cfg M_NP2 expId pid) :
    ∃ i < cfg.BLOCK_SIZE_M, ∃ j < cfg.BLOCK_SIZE_N,
      args.expStart.getD (expId + args.expertOffset) 0
          < args.expEnd.getD (expId + args.expertOffset) 0 ∧
      (pidDecode cfg (cdiv M_NP2 cfg.BLOCK_SIZE_M) (cdiv args.N cfg.BLOCK_SIZE_N) pid).1
          * cfg.BLOCK_SIZE_M
        < args.expEnd.getD (expId + args.expertOffset) 0
          - args.expStart.getD (expId + args.expertOffset) 0 ∧
      (pidDecode cfg (cdiv M_NP2 cfg.BLOCK_SIZE_M) (cdiv args.N cfg.BLOCK_SIZE_N) pid).2
          * cfg.BLOCK_SIZE_N < args.N ∧
      args.expStart.getD (expId + args.expertOffset) 0
          + (pidDecode cfg (cdiv M_NP2 cfg.BLOCK_SIZE_M) (cdiv args.N cfg.BLOCK_SIZE_N) pid).1
            * cfg.BLOCK_SIZE_M + i
        < args.expEnd.getD (expId + args.expertOffset) 0 ∧
      s = (kuRow args (args.expStart.getD (expId + args.expertOffset) 0
              + (pidDecode cfg (cdiv M_NP2 cfg.BLOCK_SIZE_M) (cdiv args.N cfg.BLOCK_SIZE_N) pid).1
                * cfg.BLOCK_SIZE_M + i),
            ((pidDecode cfg (cdiv M_NP2 cfg.BLOCK_SIZE_M) (cdiv args.N cfg.BLOCK_SIZE_N) pid).2
                * cfg.BLOCK_SIZE_N + j) % args.N,
            kuVal args cfg expId
              (args.expStart.getD (expId + args.expertOffset) 0
                + (pidDecode cfg (cdiv M_NP2 cfg.BLOCK_SIZE_M)
                    (cdiv args.N cfg.BLOCK_SIZE_N) pid).1 * cfg.BLOCK_SIZE_M + i)
              (((pidDecode cfg (cdiv M_NP2 cfg.BLOCK_SIZE_M)
                    (cdiv args.N cfg.BLOCK_SIZE_N) pid).2
                  * cfg.BLOCK_SIZE_N + j) % args.N)) := by
  unfold kernelUnit at hs
  by_cases h1 : ((args.expEnd.getD (expId + args.expertOffset) 0 : Int)
      - (args.expStart.getD (expId + args.expertOffset) 0 : Int)) ≤ 0
  · rw [if_pos h1] at hs
    cases hs
  · rw [if_neg h1] at hs
    by_cases h2 : args.expEnd.getD (expId + args.expertOffset) 0
          - args.expStart.getD (expId + args.expertOffset) 0
        ≤ (pidDecode cfg (cdiv M_NP2 cfg.BLOCK_SIZE_M) (cdiv args.N cfg.BLOCK_SIZE_N) pid).1
            * cfg.BLOCK_SIZE_M
        ∨ args.N
          ≤ (pidDecode cfg (cdiv M_NP2 cfg.BLOCK_SIZE_M) (cdiv args.N cfg.BLOCK_SIZE_N) pid).2
              * cfg.BLOCK_SIZE_N
    · rw [if_pos h2] at hs
      cases hs
    · rw [if_neg h2] at hs
      obtain ⟨i, hi, hmap⟩ := List.mem_flatMap.mp hs
      rw [List.mem_filter, List.mem_range] at hi
      obtain ⟨j, hj, hstore⟩ := List.mem_map.mp hmap
      rw [List.mem_range] at hj
      push_neg at h2
      refine ⟨i, hi.1, j, hj, by omega, h2.1, h2.2, by simpa using hi.2, ?_⟩
      exact hstore.symm

lemma mem_launcherStores (args : KernelArgs) (cfg : KernelCfg) (E M_NP2 : Nat)
    (s : Nat × Nat × ℚ) :
    s ∈ launcherStores args cfg E M_NP2 ↔
      ∃ e < E, ∃ pid < launcherGrid0 cfg M_NP2 args.N,
        s ∈ kernelUnit args cfg M_NP2 e pid := by
  unfold launcherStores
  simp [List.mem_flatMap]

lemma getStartEnd_getD (ids p : List Nat) (numE e : Nat) (he : e < numE) :
    (getStartEnd ids p numE).1.getD e 0 = (startEndKernel ids p numE 128 e).1
    ∧ (getStartEnd ids p numE).2.getD e 0 = (startEndKernel ids p numE 128 e).2 := by
  unfold getStartEnd
  have h1 : ∀ f : Nat → Nat, ((List.range numE).map f).getD e 0 = f e := by
    intro f
    rw [List.getD_eq_getElem _ _ (by simpa using he), List.getElem_map]
    congr 1
    exact List.getElem_range _ _
  exact ⟨h1 _, h1 _⟩

/-! ### Pointwise semantics of one kernel launch -/

lemma launcher_write (args : KernelArgs) (cfg : KernelCfg) (ids : List Nat)
    (E M_NP2 : Nat) (C0 : Nat → Nat → ℚ)
    (hG : cfg.GROUP_SIZE_M = 1)
    (hBM : 0 < cfg.BLOCK_SIZE_M) (hBN : 0 < cfg.BLOCK_SIZE_N)
    (hperm : args.sortedIdx.Perm (List.range ids.length))
    (hsort : (args.sortedIdx.map (keyOf ids)).Sorted (· ≤ ·))
    (hoff : args.expertOffset = 0)
    (hst : args.expStart = (getStartEnd ids args.sortedIdx E).1)
    (hen : args.expEnd = (getStartEnd ids args.sortedIdx E).2)
    (hids : ∀ x ∈ ids, x < E)
    (hlen : ∀ e < E, (segMatches ids args.sortedIdx E e).card
        ≤ cdiv M_NP2 cfg.BLOCK_SIZE_M * cfg.BLOCK_SIZE_M)
    (j c : Nat) (hj : j < args.sortedIdx.length) (hc : c < args.N) :
    applyStores (launcherStores args cfg E M_NP2) C0 (kuRow args j) c
      = kuVal args cfg (seKeyAt ids args.sortedIdx E j) j c := by
  have hLlen : args.sortedIdx.length = ids.length := by simpa using hperm.length_eq
  have htab : ∀ e' : Nat, e' < E →
      args.expStart.getD (e' + args.expertOffset) 0
        = (startEndKernel ids args.sortedIdx E 128 e').1
      ∧ args.expEnd.getD (e' + args.expertOffset) 0
        = (startEndKernel ids args.sortedIdx E 128 e').2 := by
    intro e' he'
    rw [hoff, Nat.add_zero, hst, hen]
    exact getStartEnd_getD ids args.sortedIdx E e' he'
  have hkey : seKeyAt ids args.sortedIdx E j < E :=
    seKeyAt_lt ids args.sortedIdx E hperm hids hj
  -- injectivity of the destination row map on segment positions
  have hrow_inj : ∀ j1 j2 : Nat, j1 < args.sortedIdx.length → j2 < args.sortedIdx.length →
      kuRow args j1 = kuRow args j2 → j1 = j2 := by
    intro j1 j2 hj1 hj2 hr
    unfold kuRow at hr
    by_cases hrc : args.reindexC
    · rw [if_pos hrc, if_pos hrc] at hr
      exact sortedIdx_getD_inj ids args.sortedIdx hperm hj1 hj2 hr
    · rw [if_neg hrc, if_neg hrc] at hr
      exact hr
  apply applyStores_eq_val
  · -- every store to this address carries the same value
    intro s hsmem hr hcc
    obtain ⟨e', he', pid, hpid, hunit⟩ := (mem_launcherStores args cfg E M_NP2 s).mp hsmem
    obtain ⟨i, hi, jc, hjc, hstlt, hgm, hgn, hlane, hseq⟩ :=
      kernelUnit_store_shape args cfg M_NP2 e' pid s hunit
    obtain ⟨htab1, htab2⟩ := htab e' he'
    set pos := args.expStart.getD (e' + args.expertOffset) 0
      + (pidDecode cfg (cdiv M_NP2 cfg.BLOCK_SIZE_M) (cdiv args.N cfg.BLOCK_SIZE_N) pid).1
        * cfg.BLOCK_SIZE_M + i with hposdef
    have hposseg : (startEndKernel ids args.sortedIdx E 128 e').1 ≤ pos
        ∧ pos < (startEndKernel ids args.sortedIdx E 128 e').2 := by
      constructor
      · rw [← htab1]
        omega
      · rw [← htab2]
        omega
    have hposL : pos < args.sortedIdx.length := by
      have := segEnd_le_length ids args.sortedIdx E e' hsort he'
      omega
    have hposkey : seKeyAt ids args.sortedIdx E pos = e' :=
      (segment_mem_iff ids args.sortedIdx E e' hsort he' hposL).mp hposseg
    have hrow : s.1 = kuRow args pos := by rw [hseq]
    have hcol : s.2.1 = ((pidDecode cfg (cdiv M_NP2 cfg.BLOCK_SIZE_M)
        (cdiv args.N cfg.BLOCK_SIZE_N) pid).2 * cfg.BLOCK_SIZE_N + jc) % args.N := by
      rw [hseq]
    have hposj : pos = j := by
      apply hrow_inj pos j hposL hj
      rw [← hrow, hr]
    have hejkey : e' = seKeyAt ids args.sortedIdx E j := by
      rw [← hposj, hposkey]
    rw [hseq]
    show kuVal args cfg e' pos (((pidDecode cfg (cdiv M_NP2 cfg.BLOCK_SIZE_M)
        (cdiv args.N cfg.BLOCK_SIZE_N) pid).2 * cfg.BLOCK_SIZE_N + jc) % args.N)
      = kuVal args cfg (seKeyAt ids args.sortedIdx E j) j c
    rw [← hejkey, hposj]
    congr 1
    rw [← hcol, hcc]
  · -- the covering tile really stores this address
    obtain ⟨htab1, htab2⟩ := htab (seKeyAt ids args.sortedIdx E j) hkey
    have hjseg : (startEndKernel ids args.sortedIdx E 128 (seKeyAt ids args.sortedIdx E j)).1 ≤ j
        ∧ j < (startEndKernel ids args.sortedIdx E 128 (seKeyAt ids args.sortedIdx E j)).2 :=
      (segment_mem_iff ids args.sortedIdx E _ hsort hkey hj).mpr rfl
    obtain ⟨hsub, hstle⟩ :=
      startEndKernel_sub ids args.sortedIdx E (seKeyAt ids args.sortedIdx E j) hkey
    have hcov : j - (startEndKernel ids args.sortedIdx E 128 (seKeyAt ids args.sortedIdx E j)).1
        < cdiv M_NP2 cfg.BLOCK_SIZE_M * cfg.BLOCK_SIZE_M := by
      have := hlen (seKeyAt ids args.sortedIdx E j) hkey
      omega
    obtain ⟨st, hstq⟩ : ∃ st,
        (startEndKernel ids args.sortedIdx E 128 (seKeyAt ids args.sortedIdx E j)).1 = st :=
      ⟨_, rfl⟩
    obtain ⟨en, henq⟩ : ∃ en,
        (startEndKernel ids args.sortedIdx E 128 (seKeyAt ids args.sortedIdx E j)).2 = en :=
      ⟨_, rfl⟩
    rw [hstq] at hjseg hsub htab1 hstle hcov
    rw [henq] at hjseg hsub htab2 hstle
    obtain ⟨pm, hpmq⟩ : ∃ pm, (j - st) / cfg.BLOCK_SIZE_M = pm := ⟨_, rfl⟩
    obtain ⟨pn, hpnq⟩ : ∃ pn, c / cfg.BLOCK_SIZE_N = pn := ⟨_, rfl⟩
    have hpmlt : pm < cdiv M_NP2 cfg.BLOCK_SIZE_M := by
      rw [← hpmq, Nat.div_lt_iff_lt_mul hBM]
      omega
    have hpnlt : pn < cdiv args.N cfg.BLOCK_SIZE_N := by
      rw [← hpnq]
      exact div_lt_cdiv c args.N _ hBN hc
    have hnmpos : 0 < cdiv M_NP2 cfg.BLOCK_SIZE_M := by omega
    have hpidlt : cdiv M_NP2 cfg.BLOCK_SIZE_M * pn + pm < launcherGrid0 cfg M_NP2 args.N := by
      unfold launcherGrid0
      have h1 : cdiv M_NP2 cfg.BLOCK_SIZE_M * pn + pm
          < cdiv M_NP2 cfg.BLOCK_SIZE_M * (pn + 1) := by
        rw [Nat.mul_add, Nat.mul_one]
        omega
      have h2 : cdiv M_NP2 cfg.BLOCK_SIZE_M * (pn + 1)
          ≤ cdiv M_NP2 cfg.BLOCK_SIZE_M * cdiv args.N cfg.BLOCK_SIZE_N :=
        Nat.mul_le_mul_left _ hpnlt
      omega
    have hdecode : pidDecode cfg (cdiv M_NP2 cfg.BLOCK_SIZE_M)
        (cdiv args.N cfg.BLOCK_SIZE_N) (cdiv M_NP2 cfg.BLOCK_SIZE_M * pn + pm) = (pm, pn) := by
      unfold pidDecode
      rw [if_pos hG]
      rw [Nat.mul_add_mod, Nat.mod_eq_of_lt hpmlt, Nat.mul_add_div hnmpos,
        Nat.div_eq_of_lt hpmlt, Nat.add_zero]
    have hple : pm * cfg.BLOCK_SIZE_M ≤ j - st := by
      rw [← hpmq]
      exact Nat.div_mul_le_self _ _
    have hmod := Nat.div_add_mod (j - st) cfg.BLOCK_SIZE_M
    rw [hpmq] at hmod
    have hmodlt : (j - st) % cfg.BLOCK_SIZE_M < cfg.BLOCK_SIZE_M := Nat.mod_lt _ hBM
    have hmulcomm : cfg.BLOCK_SIZE_M * pm = pm * cfg.BLOCK_SIZE_M := Nat.mul_comm _ _
    obtain ⟨i, hiq⟩ : ∃ i, (j - st) % cfg.BLOCK_SIZE_M = i := ⟨_, rfl⟩
    rw [hiq] at hmod hmodlt
    have hlanej : st + pm * cfg.BLOCK_SIZE_M + i = j := by omega
    have hnle : pn * cfg.BLOCK_SIZE_N ≤ c := by
      rw [← hpnq]
      exact Nat.div_mul_le_self _ _
    have hnmod := Nat.div_add_mod c cfg.BLOCK_SIZE_N
    rw [hpnq] at hnmod
    have hnmodlt : c % cfg.BLOCK_SIZE_N < cfg.BLOCK_SIZE_N := Nat.mod_lt _ hBN
    have hnmulcomm : cfg.BLOCK_SIZE_N * pn = pn * cfg.BLOCK_SIZE_N := Nat.mul_comm _ _
    obtain ⟨jc, hjcq⟩ : ∃ jc, c % cfg.BLOCK_SIZE_N = jc := ⟨_, rfl⟩
    rw [hjcq] at hnmod hnmodlt
    have hcolc : (pn * cfg.BLOCK_SIZE_N + jc) % args.N = c := by
      have hcol1 : pn * cfg.BLOCK_SIZE_N + jc = c := by omega
      rw [hcol1, Nat.mod_eq_of_lt hc]
    have hmem := kernelUnit_store_mem args cfg M_NP2 (seKeyAt ids args.sortedIdx E j)
      (cdiv M_NP2 cfg.BLOCK_SIZE_M * pn + pm) i jc
      (by rw [hdecode]
          show pm * cfg.BLOCK_SIZE_M < _ - _
          rw [htab1, htab2]
          omega)
      (by rw [hdecode]
          show pn * cfg.BLOCK_SIZE_N < args.N
          omega)
      hmodlt
      (by rw [hdecode]
          show args.expStart.getD _ 0 + pm * cfg.BLOCK_SIZE_M + i < args.expEnd.getD _ 0
          rw [htab1, htab2]
          omega)
      hnmodlt
    refine ⟨_, (mem_launcherStores args cfg E M_NP2 _).mpr
      ⟨seKeyAt ids args.sortedIdx E j, hkey,
        cdiv M_NP2 cfg.BLOCK_SIZE_M * pn + pm, hpidlt, hmem⟩, ?_, ?_⟩
    · rw [hdecode]
      show kuRow args (args.expStart.getD _ 0 + pm * cfg.BLOCK_SIZE_M + i) = kuRow args j
      rw [htab1, hlanej]
    · rw [hdecode]
      show (pn * cfg.BLOCK_SIZE_N + jc) % args.N = c
      exact hcolc

/-! ### The two passes of `fused_moe` -/

lemma cfg_facts {cfg : KernelCfg} (h : cfg ∈ cudaAutotuneConfigs) :
    cfg.GROUP_SIZE_M = 1 ∧ 0 < cfg.BLOCK_SIZE_M ∧ 0 < cfg.BLOCK_SIZE_N
      ∧ 0 < cfg.BLOCK_SIZE_K := by
  fin_cases h <;> exact ⟨rfl, by norm_num, by norm_num, by norm_num⟩

lemma moeValid_perm (mc : MoeCall) (hv : MoeValid mc) :
    (moeSorted mc).1.Perm (List.range mc.topkIds.length) := hv.hsorted.1

lemma moeValid_sortkeys (mc : MoeCall) (hv : MoeValid mc) :
    ((moeSorted mc).1.map (keyOf mc.topkIds)).Sorted (· ≤ ·) := hv.hsorted.2

lemma moeNumE_eq (mc : MoeCall) (hv : MoeValid mc) : moeNumE mc = mc.E := by
  unfold moeNumE
  rw [hv.hnum]
  rfl

lemma moeTables (mc : MoeCall) (hv : MoeValid mc) :
    (moeSorted mc).2.1 = (getStartEnd mc.topkIds (moeSorted mc).1 mc.E).1
    ∧ (moeSorted mc).2.2 = (getStartEnd mc.topkIds (moeSorted mc).1 mc.E).2 := by
  have h1 : moeSorted mc
      = (mc.argsortF mc.topkIds,
         (getStartEnd mc.topkIds (mc.argsortF mc.topkIds) (moeNumE mc)).1,
         (getStartEnd mc.topkIds (mc.argsortF mc.topkIds) (moeNumE mc)).2) := rfl
  rw [h1, moeNumE_eq mc hv]
  exact ⟨rfl, rfl⟩

lemma moeSeg_le (mc : MoeCall) (hv : MoeValid mc) (cfg : KernelCfg)
    (hcfg : cfg ∈ cudaAutotuneConfigs) :
    ∀ e < mc.E, (segMatches mc.topkIds (moeSorted mc).1 mc.E e).card
      ≤ cdiv (max 64 (nextPow2 mc.Mtok)) cfg.BLOCK_SIZE_M * cfg.BLOCK_SIZE_M := by
  intro e _
  have h1 := segCard_le_tokens mc.topkIds (moeSorted mc).1 mc.E e mc.Mtok mc.topk
    (moeValid_perm mc hv) hv.hlen hv.hdist
  have h2 : mc.Mtok ≤ nextPow2 mc.Mtok := le_nextPow2 _
  have h3 : nextPow2 mc.Mtok ≤ max 64 (nextPow2 mc.Mtok) := Nat.le_max_right _ _
  have hBM : 0 < cfg.BLOCK_SIZE_M := (cfg_facts hcfg).2.1
  have h4 := le_cdiv_mul (max 64 (nextPow2 mc.Mtok)) cfg.BLOCK_SIZE_M hBM
  omega

lemma moePlen (mc : MoeCall) (hv : MoeValid mc) :
    (moeSorted mc).1.length = mc.topkIds.length := by
  simpa using (moeValid_perm mc hv).length_eq

lemma moeCache1_eq (mc : MoeCall) (hv : MoeValid mc) (j n : Nat)
    (hj : j < mc.topkIds.length) (hn : n < 2 * mc.N2) :
    moeCache1 mc j n
      = specGateUp mc.topkIds (moeSorted mc).1 mc.E mc.topk mc.K mc.hidden mc.w1 j n := by
  obtain ⟨hG, hBM, hBN, hBK⟩ := cfg_facts hv.hcfg1
  have hplen := moePlen mc hv
  have hw := launcher_write (moeArgs1 mc) mc.cfg1 mc.topkIds mc.E
    (max 64 (nextPow2 mc.Mtok))
    (makeIntermediate (moeZerosFlag mc.E mc.numExperts) mc.junk1)
    hG hBM hBN (moeValid_perm mc hv) (moeValid_sortkeys mc hv) hv.hoff
    (moeTables mc hv).1 (moeTables mc hv).2 hv.hids
    (moeSeg_le mc hv mc.cfg1 hv.hcfg1) j n
    (by show j < (moeSorted mc).1.length; omega) hn
  have hval : kuVal (moeArgs1 mc) mc.cfg1 (seKeyAt mc.topkIds (moeSorted mc).1 mc.E j) j n
      = specGateUp mc.topkIds (moeSorted mc).1 mc.E mc.topk mc.K mc.hidden mc.w1 j n := by
    show id (dotBlocks
        (fun k => mc.hidden ((moeSorted mc).1.getD j 0 / mc.topk) k)
        (fun k => mc.w1 (seKeyAt mc.topkIds (moeSorted mc).1 mc.E j) n k)
        mc.K mc.cfg1.BLOCK_SIZE_K)
      = specGateUp mc.topkIds (moeSorted mc).1 mc.E mc.topk mc.K mc.hidden mc.w1 j n
    rw [id_eq, dotBlocks_eq _ _ _ _ hBK]
    rfl
  calc moeCache1 mc j n
      = applyStores
          (launcherStores (moeArgs1 mc) mc.cfg1 mc.E (max 64 (nextPow2 mc.Mtok)))
          (makeIntermediate (moeZerosFlag mc.E mc.numExperts) mc.junk1)
          (kuRow (moeArgs1 mc) j) n := rfl
    _ = kuVal (moeArgs1 mc) mc.cfg1 (seKeyAt mc.topkIds (moeSorted mc).1 mc.E j) j n := hw
    _ = specGateUp mc.topkIds (moeSorted mc).1 mc.E mc.topk mc.K mc.hidden mc.w1 j n := hval

lemma moeCache2_eq (mc : MoeCall) (hv : MoeValid mc) (j d : Nat)
    (hj : j < mc.topkIds.length) (hd : d < mc.D) :
    moeCache2 mc ((moeSorted mc).1.getD j 0) d
      = specDown mc.topkIds (moeSorted mc).1 mc.E mc.N2 (moeGate mc) mc.w2
          (moeTwFlat mc) j d := by
  obtain ⟨hG, hBM, hBN, hBK⟩ := cfg_facts hv.hcfg2
  have hplen := moePlen mc hv
  have hw := launcher_write (moeArgs2 mc) mc.cfg2 mc.topkIds mc.E
    (max 64 (nextPow2 mc.Mtok))
    (makeIntermediate (moeZerosFlag mc.E mc.numExperts) mc.junk2)
    hG hBM hBN (moeValid_perm mc hv) (moeValid_sortkeys mc hv) hv.hoff
    (moeTables mc hv).1 (moeTables mc hv).2 hv.hids
    (moeSeg_le mc hv mc.cfg2 hv.hcfg2) j d
    (by show j < (moeSorted mc).1.length; omega) hd
  have hval : kuVal (moeArgs2 mc) mc.cfg2 (seKeyAt mc.topkIds (moeSorted mc).1 mc.E j) j d
      = specDown mc.topkIds (moeSorted mc).1 mc.E mc.N2 (moeGate mc) mc.w2
          (moeTwFlat mc) j d := by
    show id (dotBlocks
        (fun k => moeGate mc j k)
        (fun k => mc.w2 (seKeyAt mc.topkIds (moeSorted mc).1 mc.E j) d k)
        mc.N2 mc.cfg2.BLOCK_SIZE_K
        * moeTwFlat mc ((moeSorted mc).1.getD j 0))
      = specDown mc.topkIds (moeSorted mc).1 mc.E mc.N2 (moeGate mc) mc.w2
          (moeTwFlat mc) j d
    rw [id_eq, dotBlocks_eq _ _ _ _ hBK]
    unfold specDown
    ring
  calc moeCache2 mc ((moeSorted mc).1.getD j 0) d
      = applyStores
          (launcherStores (moeArgs2 mc) mc.cfg2 mc.E (max 64 (nextPow2 mc.Mtok)))
          (makeIntermediate (moeZerosFlag mc.E mc.numExperts) mc.junk2)
          (kuRow (moeArgs2 mc) j) d := rfl
    _ = kuVal (moeArgs2 mc) mc.cfg2 (seKeyAt mc.topkIds (moeSorted mc).1 mc.E j) j d := hw
    _ = specDown mc.topkIds (moeSorted mc).1 mc.E mc.N2 (moeGate mc) mc.w2
          (moeTwFlat mc) j d := hval

lemma fusedMoe_eq_naive (mc : MoeCall) (hv : MoeValid mc) (t d : Nat)
    (ht : t < mc.Mtok) (hd : d < mc.D) :
    fusedMoe mc t d
      = naiveMoe mc.topk mc.N2 mc.K mc.hidden mc.w1 mc.w2
          (renormalizeW mc.topkWeights mc.topk mc.renormalize) mc.topkIds mc.actF t d := by
  unfold fusedMoe naiveMoe
  apply Finset.sum_congr rfl
  intro s hs
  rw [Finset.mem_range] at hs
  have htp : 0 < mc.topk := by omega
  have hiL : t * mc.topk + s < mc.topkIds.length := by
    rw [hv.hlen]
    calc t * mc.topk + s < t * mc.topk + mc.topk := by omega
      _ = (t + 1) * mc.topk := by ring
      _ ≤ mc.Mtok * mc.topk := Nat.mul_le_mul_right _ (by omega)
  obtain ⟨j, ⟨hjlen, hji⟩, _⟩ := sortedIdx_bij mc.topkIds (moeSorted mc).1
    (moeValid_perm mc hv) (t * mc.topk + s) hiL
  have hplen := moePlen mc hv
  have hjlen2 : j < mc.topkIds.length := by omega
  have h2 := moeCache2_eq mc hv j d hjlen2 hd
  rw [hji] at h2
  rw [h2]
  unfold specDown
  rw [hji]
  have hkeyj : seKeyAt mc.topkIds (moeSorted mc).1 mc.E j
      = mc.topkIds.getD (t * mc.topk + s) 0 := by
    unfold seKeyAt keyOf
    rw [if_pos hjlen, hji]
  have hdiv : (t * mc.topk + s) / mc.topk = t := by
    rw [Nat.mul_comm t mc.topk, Nat.mul_add_div htp, Nat.div_eq_of_lt hs, Nat.add_zero]
  have hmod : (t * mc.topk + s) % mc.topk = s := by
    rw [Nat.mul_comm t mc.topk, Nat.mul_add_mod, Nat.mod_eq_of_lt hs]
  have htw : moeTwFlat mc (t * mc.topk + s)
      = renormalizeW mc.topkWeights mc.topk mc.renormalize t s := by
    unfold moeTwFlat
    rw [hdiv, hmod]
  rw [htw, hkeyj]
  congr 1
  apply Finset.sum_congr rfl
  intro k2 hk2
  rw [Finset.mem_range] at hk2
  unfold moeGate
  rw [moeCache1_eq mc hv j k2 hjlen2 (by omega),
      moeCache1_eq mc hv j (mc.N2 + k2) hjlen2 (by omega)]
  unfold specGateUp
  rw [hji, hdiv, hkeyj]

/-! ### Store counting -/

lemma countP_range_indicator (n x : Nat) :
    (List.range n).countP (fun j => j == x) = if x < n then 1 else 0 := by
  induction n with
  | zero => simp
  | succ n ih =>
    rw [List.range_succ, List.countP_append, ih, List.countP_singleton]
    by_cases h2 : x = n
    · subst h2
      rw [if_neg (Nat.lt_irrefl x), if_pos (Nat.lt_succ_self x)]
      simp
    · have hnx : ¬((n == x) = true) := by
        simp only [beq_iff_eq]
        omega
      rw [if_neg hnx, Nat.add_zero]
      by_cases h3 : x < n
      · rw [if_pos h3, if_pos (by omega)]
      · rw [if_neg h3, if_neg (by omega)]

lemma colCount_eq (BN N pn c : Nat) (hdvd : BN ∣ N) (hgate : pn * BN < N) :
    (List.range BN).countP (fun j => (pn * BN + j) % N == c)
      = if pn * BN ≤ c ∧ c < pn * BN + BN then 1 else 0 := by
  obtain ⟨m, hm⟩ := hdvd
  have hBN : 0 < BN := by
    rcases Nat.eq_zero_or_pos BN with h0 | h
    · subst h0
      rw [Nat.zero_mul] at hm
      omega
    · exact h
  have hpn1 : (pn + 1) * BN ≤ m * BN := by
    have hpnm : pn < m := by
      by_contra hge
      push_neg at hge
      have h1 : m * BN ≤ pn * BN := mul_le_mul_right' hge BN
      have h2 : BN * m = m * BN := Nat.mul_comm _ _
      omega
    exact mul_le_mul_right' (by omega) BN
  have hlt : ∀ j < BN, pn * BN + j < N := by
    intro j hj
    have hexp : (pn + 1) * BN = pn * BN + BN := by ring
    have h2 : BN * m = m * BN := Nat.mul_comm _ _
    omega
  by_cases hcl : pn * BN ≤ c
  · have hcong : (List.range BN).countP (fun j => (pn * BN + j) % N == c)
        = (List.range BN).countP (fun j => j == (c - pn * BN)) := by
      apply List.countP_congr
      intro j hj
      rw [List.mem_range] at hj
      rw [Nat.mod_eq_of_lt (hlt j hj)]
      simp only [beq_iff_eq]
      omega
    rw [hcong, countP_range_indicator]
    by_cases h2 : c - pn * BN < BN
    · rw [if_pos h2, if_pos (by omega)]
    · rw [if_neg h2, if_neg (by omega)]
  · have hz : (List.range BN).countP (fun j => (pn * BN + j) % N == c) = 0 := by
      rw [List.countP_eq_zero]
      intro j hj
      rw [List.mem_range] at hj
      rw [Nat.mod_eq_of_lt (hlt j hj)]
      simp only [beq_iff_eq]
      omega
    rw [hz, if_neg (by omega)]

lemma sum_map_filter {M : Type*} [AddCommMonoid M] (l : List Nat) (Q : Nat → Bool)
    (g : Nat → M) :
    ((l.filter Q).map g).sum = (l.map (fun i => if Q i then g i else 0)).sum := by
  induction l with
  | nil => rfl
  | cons a t ih => by_cases h : Q a <;> simp [List.filter_cons, h, ih]

/-- How many stores one lane block of `fused_moe_kernel` puts into cell `(r, c)`:
one iff the tile covers the row (within the segment) and the column block covers
`c` (columns wrap through `% N`; `BN ∣ N` keeps the wrap injective). -/
lemma count_lane_block (BM BN N ST EN PM PN r c : Nat) (val : Nat → Nat → ℚ)
    (hdvd : BN ∣ N) (hgate : PN * BN < N) :
    (((List.range BM).filter (fun i => ST + PM * BM + i < EN)).flatMap
        (fun i => (List.range BN).map
          (fun j => (ST + PM * BM + i, (PN * BN + j) % N, val i j)))).countP
        (fun s => s.1 == r && s.2.1 == c)
      = if ST + PM * BM ≤ r ∧ r < ST + PM * BM + BM ∧ r < EN
            ∧ PN * BN ≤ c ∧ c < PN * BN + BN
        then 1 else 0 := by
  rw [countP_flatMap, sum_map_filter, sum_map_range]
  by_cases hrow : ST + PM * BM ≤ r ∧ r < ST + PM * BM + BM ∧ r < EN
  · refine Eq.trans (Finset.sum_eq_single_of_mem (r - ST - PM * BM)
      (Finset.mem_range.mpr (by omega)) ?side) ?main
    case side =>
      intro b hb hne
      by_cases hd : ST + PM * BM + b < EN
      · rw [if_pos (decide_eq_true hd), List.countP_map, List.countP_eq_zero]
        intro j hj
        show ¬ ((ST + PM * BM + b == r) && ((PN * BN + j) % N == c)) = true
        simp only [Bool.and_eq_true, beq_iff_eq]
        rintro ⟨h1, -⟩
        apply hne
        omega
      · rw [if_neg (by rw [decide_eq_true_eq]; exact hd)]
    case main =>
      have hd : ST + PM * BM + (r - ST - PM * BM) < EN := by omega
      rw [if_pos (decide_eq_true hd), List.countP_map]
      have hcong : (List.range BN).countP
          ((fun s : Nat × Nat × ℚ => s.1 == r && s.2.1 == c)
            ∘ (fun j => (ST + PM * BM + (r - ST - PM * BM), (PN * BN + j) % N,
                val (r - ST - PM * BM) j)))
          = (List.range BN).countP (fun j => (PN * BN + j) % N == c) := by
        apply List.countP_congr
        intro j hj
        have hbeq : (ST + PM * BM + (r - ST - PM * BM) == r) = true := by
          simp only [beq_iff_eq]
          omega
        show ((ST + PM * BM + (r - ST - PM * BM) == r) && ((PN * BN + j) % N == c)) = true
          ↔ ((PN * BN + j) % N == c) = true
        rw [hbeq, Bool.true_and]
      rw [hcong, colCount_eq BN N PN c hdvd hgate]
      by_cases hcol : PN * BN ≤ c ∧ c < PN * BN + BN
      · rw [if_pos hcol, if_pos (by omega)]
      · rw [if_neg hcol, if_neg (by omega)]
  · refine Eq.trans (Finset.sum_eq_zero ?hz) ?fin
    case hz =>
      intro i hi
      rw [Finset.mem_range] at hi
      by_cases hd : ST + PM * BM + i < EN
      · rw [if_pos (decide_eq_true hd), List.countP_map, List.countP_eq_zero]
        intro j hj
        show ¬ ((ST + PM * BM + i == r) && ((PN * BN + j) % N == c)) = true
        simp only [Bool.and_eq_true, beq_iff_eq]
        rintro ⟨h1, -⟩
        apply hrow
        omega
      · rw [if_neg (by rw [decide_eq_true_eq]; exact hd)]
    case fin =>
      rw [if_neg (by omega)]

/-- Exact store count of one `(expert, pid)` unit at a cell, for `reindex_c = False`:
`1` iff the tile is live and covers the cell, else `0`. -/
lemma kernelUnit_storeCount (args : KernelArgs) (cfg : KernelCfg)
    (M_NP2 expId pid r c : Nat)
    (hrcF : args.reindexC = false) (hdvd : cfg.BLOCK_SIZE_N ∣ args.N) :
    storeCount (kernelUnit args cfg M_NP2 expId pid) r c
      = if args.expStart.getD (expId + args.expertOffset) 0
            < args.expEnd.getD (expId + args.expertOffset) 0
          ∧ (pidDecode cfg (cdiv M_NP2 cfg.BLOCK_SIZE_M) (cdiv args.N cfg.BLOCK_SIZE_N)
              pid).1 * cfg.BLOCK_SIZE_M
            < args.expEnd.getD (expId + args.expertOffset) 0
              - args.expStart.getD (expId + args.expertOffset) 0
          ∧ (pidDecode cfg (cdiv M_NP2 cfg.BLOCK_SIZE_M) (cdiv args.N cfg.BLOCK_SIZE_N)
              pid).2 * cfg.BLOCK_SIZE_N < args.N
          ∧ args.expStart.getD (expId + args.expertOffset) 0
              + (pidDecode cfg (cdiv M_NP2 cfg.BLOCK_SIZE_M) (cdiv args.N cfg.BLOCK_SIZE_N)
                  pid).1 * cfg.BLOCK_SIZE_M ≤ r
          ∧ r < args.expStart.getD (expId + args.expertOffset) 0
              + (pidDecode cfg (cdiv M_NP2 cfg.BLOCK_SIZE_M) (cdiv args.N cfg.BLOCK_SIZE_N)
                  pid).1 * cfg.BLOCK_SIZE_M + cfg.BLOCK_SIZE_M
          ∧ r < args.expEnd.getD (expId + args.expertOffset) 0
          ∧ (pidDecode cfg (cdiv M_NP2 cfg.BLOCK_SIZE_M) (cdiv args.N cfg.BLOCK_SIZE_N)
              pid).2 * cfg.BLOCK_SIZE_N ≤ c
          ∧ c < (pidDecode cfg (cdiv M_NP2 cfg.BLOCK_SIZE_M) (cdiv args.N cfg.BLOCK_SIZE_N)
              pid).2 * cfg.BLOCK_SIZE_N + cfg.BLOCK_SIZE_N
        then 1 else 0 := by
  obtain ⟨ST, hST⟩ : ∃ x, args.expStart.getD (expId + args.expertOffset) 0 = x := ⟨_, rfl⟩
  obtain ⟨EN, hEN⟩ : ∃ x, args.expEnd.getD (expId + args.expertOffset) 0 = x := ⟨_, rfl⟩
  obtain ⟨PM, hPM⟩ : ∃ x, (pidDecode cfg (cdiv M_NP2 cfg.BLOCK_SIZE_M)
    (cdiv args.N cfg.BLOCK_SIZE_N) pid).1 = x := ⟨_, rfl⟩
  obtain ⟨PN, hPN⟩ : ∃ x, (pidDecode cfg (cdiv M_NP2 cfg.BLOCK_SIZE_M)
    (cdiv args.N cfg.BLOCK_SIZE_N) pid).2 = x := ⟨_, rfl⟩
  rw [hST, hEN, hPM, hPN]
  unfold storeCount
  simp only [kernelUnit, hST, hEN, hPM, hPN, hrcF, Bool.false_eq_true, if_false]
  by_cases h1 : ((EN : Int) - (ST : Int)) ≤ 0
  · rw [if_pos h1, List.countP_nil]
    split
    · rename_i hcond
      exfalso
      omega
    · rfl
  · rw [if_neg h1]
    by_cases h2 : EN - ST ≤ PM * cfg.BLOCK_SIZE_M ∨ args.N ≤ PN * cfg.BLOCK_SIZE_N
    · rw [if_pos h2, List.countP_nil]
      split
      · rename_i hcond
        exfalso
        omega
      · rfl
    · rw [if_neg h2]
      push_neg at h2
      rw [count_lane_block cfg.BLOCK_SIZE_M cfg.BLOCK_SIZE_N args.N ST EN PM PN r c _
        hdvd h2.2]
      by_cases hin : ST + PM * cfg.BLOCK_SIZE_M ≤ r
          ∧ r < ST + PM * cfg.BLOCK_SIZE_M + cfg.BLOCK_SIZE_M ∧ r < EN
          ∧ PN * cfg.BLOCK_SIZE_N ≤ c ∧ c < PN * cfg.BLOCK_SIZE_N + cfg.BLOCK_SIZE_N
      · rw [if_pos hin, if_pos (by omega)]
      · rw [if_neg hin, if_neg (by omega)]

/-- The launch store count at a cell is the double sum of unit store counts over the
grid. -/
lemma storeCount_launcher (args : KernelArgs) (cfg : KernelCfg) (E M_NP2 r c : Nat) :
    storeCount (launcherStores args cfg E M_NP2) r c
      = ∑ e ∈ Finset.range E, ∑ pid ∈ Finset.range (launcherGrid0 cfg M_NP2 args.N),
          storeCount (kernelUnit args cfg M_NP2 e pid) r c := by
  unfold storeCount launcherStores
  rw [countP_flatMap, sum_map_range]
  apply Finset.sum_congr rfl
  intro e he
  show ((List.range (launcherGrid0 cfg M_NP2 args.N)).flatMap
      (fun pid => kernelUnit args cfg M_NP2 e pid)).countP
      (fun s => s.1 == r && s.2.1 == c)
    = ∑ pid ∈ Finset.range (launcherGrid0 cfg M_NP2 args.N),
        (kernelUnit args cfg M_NP2 e pid).countP (fun s => s.1 == r && s.2.1 == c)
  rw [countP_flatMap, sum_map_range]

/-- Pointwise store count of one launch with canonical tables and `reindex_c = False`:
the cell `(j, c)` of a sorted position `j` is stored exactly once when the offset of
`j` inside its segment is below the per-expert row capacity
`cdiv M_NP2 BLOCK_SIZE_M * BLOCK_SIZE_M`, and never stored otherwise. -/
lemma launcher_storeCount (args : KernelArgs) (cfg : KernelCfg) (ids : List Nat)
    (E M_NP2 : Nat)
    (hG : cfg.GROUP_SIZE_M = 1)
    (hBM : 0 < cfg.BLOCK_SIZE_M) (hBN : 0 < cfg.BLOCK_SIZE_N)
    (hperm : args.sortedIdx.Perm (List.range ids.length))
    (hsort : (args.sortedIdx.map (keyOf ids)).Sorted (· ≤ ·))
    (hoff : args.expertOffset = 0)
    (hst : args.expStart = (getStartEnd ids args.sortedIdx E).1)
    (hen : args.expEnd = (getStartEnd ids args.sortedIdx E).2)
    (hids : ∀ x ∈ ids, x < E)
    (hrcF : args.reindexC = false)
    (hdvd : cfg.BLOCK_SIZE_N ∣ args.N)
    (j c : Nat) (hj : j < args.sortedIdx.length) (hc : c < args.N) :
    storeCount (launcherStores args cfg E M_NP2) j c
      = if j - (startEndKernel ids args.sortedIdx E 128 (seKeyAt ids args.sortedIdx E j)).1
            < cdiv M_NP2 cfg.BLOCK_SIZE_M * cfg.BLOCK_SIZE_M
        then 1 else 0 := by
  have htab : ∀ e < E,
      args.expStart.getD (e + args.expertOffset) 0
          = (startEndKernel ids args.sortedIdx E 128 e).1
        ∧ args.expEnd.getD (e + args.expertOffset) 0
          = (startEndKernel ids args.sortedIdx E 128 e).2 := by
    intro e he
    rw [hoff, Nat.add_zero, hst, hen]
    exact getStartEnd_getD ids args.sortedIdx E e he
  have hdec1 : ∀ pid : Nat,
      (pidDecode cfg (cdiv M_NP2 cfg.BLOCK_SIZE_M) (cdiv args.N cfg.BLOCK_SIZE_N) pid).1
        = pid % cdiv M_NP2 cfg.BLOCK_SIZE_M := by
    intro pid
    unfold pidDecode
    rw [if_pos hG]
  have hdec2 : ∀ pid : Nat,
      (pidDecode cfg (cdiv M_NP2 cfg.BLOCK_SIZE_M) (cdiv args.N cfg.BLOCK_SIZE_N) pid).2
        = pid / cdiv M_NP2 cfg.BLOCK_SIZE_M := by
    intro pid
    unfold pidDecode
    rw [if_pos hG]
  have hkey : seKeyAt ids args.sortedIdx E j < E :=
    seKeyAt_lt ids args.sortedIdx E hperm hids hj
  obtain ⟨e0, he0⟩ : ∃ x, seKeyAt ids args.sortedIdx E j = x := ⟨_, rfl⟩
  rw [he0] at hkey ⊢
  have hjseg0 := (segment_mem_iff ids args.sortedIdx E e0 hsort hkey hj).mpr he0
  obtain ⟨st0, hst0⟩ : ∃ x, (startEndKernel ids args.sortedIdx E 128 e0).1 = x := ⟨_, rfl⟩
  obtain ⟨en0, hen0⟩ : ∃ x, (startEndKernel ids args.sortedIdx E 128 e0).2 = x := ⟨_, rfl⟩
  rw [hst0, hen0] at hjseg0
  rw [hst0]
  obtain ⟨htb1, htb2⟩ := htab e0 hkey
  rw [hst0] at htb1
  rw [hen0] at htb2
  rw [storeCount_launcher]
  by_cases hfit : j - st0 < cdiv M_NP2 cfg.BLOCK_SIZE_M * cfg.BLOCK_SIZE_M
  · rw [if_pos hfit]
    obtain ⟨pm0, hpm0⟩ : ∃ x, (j - st0) / cfg.BLOCK_SIZE_M = x := ⟨_, rfl⟩
    obtain ⟨pn0, hpn0⟩ : ∃ x, c / cfg.BLOCK_SIZE_N = x := ⟨_, rfl⟩
    have hpm0lt : pm0 < cdiv M_NP2 cfg.BLOCK_SIZE_M := by
      rw [← hpm0, Nat.div_lt_iff_lt_mul hBM]
      omega
    have hpn0lt : pn0 < cdiv args.N cfg.BLOCK_SIZE_N := by
      rw [← hpn0]
      exact div_lt_cdiv c args.N _ hBN hc
    have hple : pm0 * cfg.BLOCK_SIZE_M ≤ j - st0 := by
      rw [← hpm0]
      exact Nat.div_mul_le_self _ _
    have hmod := Nat.div_add_mod (j - st0) cfg.BLOCK_SIZE_M
    rw [hpm0] at hmod
    have hmlt : (j - st0) % cfg.BLOCK_SIZE_M < cfg.BLOCK_SIZE_M := Nat.mod_lt _ hBM
    have hmc : cfg.BLOCK_SIZE_M * pm0 = pm0 * cfg.BLOCK_SIZE_M := Nat.mul_comm _ _
    have hnle : pn0 * cfg.BLOCK_SIZE_N ≤ c := by
      rw [← hpn0]
      exact Nat.div_mul_le_self _ _
    have hnmod := Nat.div_add_mod c cfg.BLOCK_SIZE_N
    rw [hpn0] at hnmod
    have hnlt : c % cfg.BLOCK_SIZE_N < cfg.BLOCK_SIZE_N := Nat.mod_lt _ hBN
    have hnc : cfg.BLOCK_SIZE_N * pn0 = pn0 * cfg.BLOCK_SIZE_N := Nat.mul_comm _ _
    have hgrid : cdiv M_NP2 cfg.BLOCK_SIZE_M * pn0 + pm0
        < launcherGrid0 cfg M_NP2 args.N := by
      have h2 : cdiv M_NP2 cfg.BLOCK_SIZE_M * (pn0 + 1)
          ≤ cdiv M_NP2 cfg.BLOCK_SIZE_M * cdiv args.N cfg.BLOCK_SIZE_N :=
        Nat.mul_le_mul_left _ hpn0lt
      have h3 : cdiv M_NP2 cfg.BLOCK_SIZE_M * (pn0 + 1)
          = cdiv M_NP2 cfg.BLOCK_SIZE_M * pn0 + cdiv M_NP2 cfg.BLOCK_SIZE_M := by ring
      have h4 : launcherGrid0 cfg M_NP2 args.N
          = cdiv M_NP2 cfg.BLOCK_SIZE_M * cdiv args.N cfg.BLOCK_SIZE_N := rfl
      omega
    have hPMv : (pidDecode cfg (cdiv M_NP2 cfg.BLOCK_SIZE_M) (cdiv args.N cfg.BLOCK_SIZE_N)
        (cdiv M_NP2 cfg.BLOCK_SIZE_M * pn0 + pm0)).1 = pm0 := by
      rw [hdec1, Nat.mul_add_mod, Nat.mod_eq_of_lt hpm0lt]
    have hPNv : (pidDecode cfg (cdiv M_NP2 cfg.BLOCK_SIZE_M) (cdiv args.N cfg.BLOCK_SIZE_N)
        (cdiv M_NP2 cfg.BLOCK_SIZE_M * pn0 + pm0)).2 = pn0 := by
      rw [hdec2, Nat.mul_add_div (by omega), Nat.div_eq_of_lt hpm0lt, Nat.add_zero]
    refine Eq.trans (Finset.sum_eq_single_of_mem e0 (Finset.mem_range.mpr hkey) ?offE) ?atE
    case offE =>
      intro e he hene
      show (∑ pid ∈ Finset.range (launcherGrid0 cfg M_NP2 args.N),
        storeCount (kernelUnit args cfg M_NP2 e pid) j c) = 0
      apply Finset.sum_eq_zero
      intro pid hpid
      rw [kernelUnit_storeCount args cfg M_NP2 e pid j c hrcF hdvd]
      obtain ⟨hte1, hte2⟩ := htab e (Finset.mem_range.mp he)
      rw [hte1, hte2]
      split
      · rename_i hcond
        exfalso
        obtain ⟨g1, g2, g3, g4, g5, g6, g7, g8⟩ := hcond
        apply hene
        have hseg : (startEndKernel ids args.sortedIdx E 128 e).1 ≤ j
            ∧ j < (startEndKernel ids args.sortedIdx E 128 e).2 := ⟨by omega, g6⟩
        have hkeyj := (segment_mem_iff ids args.sortedIdx E e hsort
          (Finset.mem_range.mp he) hj).mp hseg
        rw [he0] at hkeyj
        exact hkeyj.symm
      · rfl
    case atE =>
      show (∑ pid ∈ Finset.range (launcherGrid0 cfg M_NP2 args.N),
        storeCount (kernelUnit args cfg M_NP2 e0 pid) j c) = 1
      refine Eq.trans (Finset.sum_eq_single_of_mem
        (cdiv M_NP2 cfg.BLOCK_SIZE_M * pn0 + pm0)
        (Finset.mem_range.mpr hgrid) ?offP) ?atP
      case offP =>
        intro pid hpid hne
        show storeCount (kernelUnit args cfg M_NP2 e0 pid) j c = 0
        rw [kernelUnit_storeCount args cfg M_NP2 e0 pid j c hrcF hdvd]
        rw [htb1, htb2, hdec1 pid, hdec2 pid]
        split
        · rename_i hcond
          exfalso
          obtain ⟨g1, g2, g3, g4, g5, g6, g7, g8⟩ := hcond
          apply hne
          have hex1 : (pid % cdiv M_NP2 cfg.BLOCK_SIZE_M + 1) * cfg.BLOCK_SIZE_M
              = pid % cdiv M_NP2 cfg.BLOCK_SIZE_M * cfg.BLOCK_SIZE_M + cfg.BLOCK_SIZE_M := by
            ring
          have hq1 : (j - st0) / cfg.BLOCK_SIZE_M = pid % cdiv M_NP2 cfg.BLOCK_SIZE_M :=
            Nat.div_eq_of_lt_le (by omega) (by omega)
          have hex2 : (pid / cdiv M_NP2 cfg.BLOCK_SIZE_M + 1) * cfg.BLOCK_SIZE_N
              = pid / cdiv M_NP2 cfg.BLOCK_SIZE_M * cfg.BLOCK_SIZE_N + cfg.BLOCK_SIZE_N := by
            ring
          have hq2 : c / cfg.BLOCK_SIZE_N = pid / cdiv M_NP2 cfg.BLOCK_SIZE_M :=
            Nat.div_eq_of_lt_le (by omega) (by omega)
          have hm1 : pid % cdiv M_NP2 cfg.BLOCK_SIZE_M = pm0 := by
            rw [← hq1, hpm0]
          have hm2 : pid / cdiv M_NP2 cfg.BLOCK_SIZE_M = pn0 := by
            rw [← hq2, hpn0]
          have hsplit := Nat.div_add_mod pid (cdiv M_NP2 cfg.BLOCK_SIZE_M)
          rw [hm1, hm2] at hsplit
          omega
        · rfl
      case atP =>
        show storeCount (kernelUnit args cfg M_NP2 e0
          (cdiv M_NP2 cfg.BLOCK_SIZE_M * pn0 + pm0)) j c = 1
        rw [kernelUnit_storeCount args cfg M_NP2 e0
          (cdiv M_NP2 cfg.BLOCK_SIZE_M * pn0 + pm0) j c hrcF hdvd]
        rw [htb1, htb2, hPMv, hPNv]
        split
        · rfl
        · rename_i hcond
          exfalso
          apply hcond
          refine ⟨by omega, by omega, by omega, by omega, by omega, by omega,
            by omega, by omega⟩
  · rw [if_neg hfit]
    apply Finset.sum_eq_zero
    intro e he
    show (∑ pid ∈ Finset.range (launcherGrid0 cfg M_NP2 args.N),
      storeCount (kernelUnit args cfg M_NP2 e pid) j c) = 0
    apply Finset.sum_eq_zero
    intro pid hpid
    rw [kernelUnit_storeCount args cfg M_NP2 e pid j c hrcF hdvd]
    obtain ⟨hte1, hte2⟩ := htab e (Finset.mem_range.mp he)
    rw [hte1, hte2, hdec1 pid, hdec2 pid]
    have hpidlt := Finset.mem_range.mp hpid
    have hgrideq : launcherGrid0 cfg M_NP2 args.N
        = cdiv M_NP2 cfg.BLOCK_SIZE_M * cdiv args.N cfg.BLOCK_SIZE_N := rfl
    rw [hgrideq] at hpidlt
    have hnum : 0 < cdiv M_NP2 cfg.BLOCK_SIZE_M := by
      rcases Nat.eq_zero_or_pos (cdiv M_NP2 cfg.BLOCK_SIZE_M) with h0 | h
      · rw [h0, Nat.zero_mul] at hpidlt
        omega
      · exact h
    have hmodlt : pid % cdiv M_NP2 cfg.BLOCK_SIZE_M < cdiv M_NP2 cfg.BLOCK_SIZE_M :=
      Nat.mod_lt _ hnum
    split
    · rename_i hcond
      exfalso
      obtain ⟨g1, g2, g3, g4, g5, g6, g7, g8⟩ := hcond
      have hseg : (startEndKernel ids args.sortedIdx E 128 e).1 ≤ j
          ∧ j < (startEndKernel ids args.sortedIdx E 128 e).2 := ⟨by omega, g6⟩
      have hkeyj := (segment_mem_iff ids args.sortedIdx E e hsort
        (Finset.mem_range.mp he) hj).mp hseg
      rw [he0] at hkeyj
      rw [← hkeyj] at g4 g5
      rw [hst0] at g4 g5
      have hstep : (pid % cdiv M_NP2 cfg.BLOCK_SIZE_M + 1) * cfg.BLOCK_SIZE_M
          ≤ cdiv M_NP2 cfg.BLOCK_SIZE_M * cfg.BLOCK_SIZE_M :=
        mul_le_mul_right' (by omega) cfg.BLOCK_SIZE_M
      have hexp : (pid % cdiv M_NP2 cfg.BLOCK_SIZE_M + 1) * cfg.BLOCK_SIZE_M
          = pid % cdiv M_NP2 cfg.BLOCK_SIZE_M * cfg.BLOCK_SIZE_M + cfg.BLOCK_SIZE_M := by
        ring
      omega
    · rfl

/-- A launch never stores into a column at or beyond `N` (columns are taken `% N`). -/
lemma storeCount_col_ge (args : KernelArgs) (cfg : KernelCfg) (E M_NP2 r c : Nat)
    (hN : 0 < args.N) (hc : args.N ≤ c) :
    storeCount (launcherStores args cfg E M_NP2) r c = 0 := by
  unfold storeCount
  rw [List.countP_eq_zero]
  intro s hs
  obtain ⟨e, he, pid, hpid, hunit⟩ := (mem_launcherStores args cfg E M_NP2 s).mp hs
  obtain ⟨i, hi, j2, hj2, -, -, -, -, hseq⟩ :=
    kernelUnit_store_shape args cfg M_NP2 e pid s hunit
  have hcol : s.2.1 < args.N := by
    rw [hseq]
    exact Nat.mod_lt _ hN
  simp only [Bool.and_eq_true, beq_iff_eq]
  rintro ⟨-, h2⟩
  omega

/-! ### The concrete overfull launch -/

lemma pairwise_const {α : Type*} (R : α → α → Prop) (h : ∀ a b, R a b) :
    ∀ l : List α, l.Pairwise R := by
  intro l
  induction l with
  | nil => exact List.Pairwise.nil
  | cons a t ih => exact List.Pairwise.cons (fun b _ => h a b) ih

lemma idsC3_key (y : Nat) : keyOf idsC3 y = 0 := by
  unfold keyOf idsC3
  rcases Nat.lt_or_ge y 192 with h | h
  · rw [List.getD_eq_getElem _ _ (by rw [List.length_replicate]; exact h)]
    exact List.getElem_replicate _ _
  · rw [List.getD_eq_default _ _ (by rw [List.length_replicate]; exact h)]

lemma pC3_length : pC3.length = 192 := by
  simp [pC3]

lemma idsC3_length : idsC3.length = 192 := by
  show (List.replicate 192 0).length = 192
  rw [List.length_replicate]

lemma permC3 : pC3.Perm (List.range idsC3.length) := by
  rw [idsC3_length]
  exact List.Perm.refl _

lemma sortC3 : (pC3.map (keyOf idsC3)).Sorted (· ≤ ·) := by
  have hpw : pC3.Pairwise (fun _ _ => True) := pairwise_const _ (fun _ _ => trivial) pC3
  exact hpw.map (keyOf idsC3) (fun a b _ => by rw [idsC3_key, idsC3_key])

lemma idsC3_lt : ∀ x ∈ idsC3, x < 1 := by
  intro x hx
  unfold idsC3 at hx
  rw [List.mem_replicate] at hx
  omega

lemma segC3_card : (segMatches idsC3 pC3 1 0).card = 192 := by
  unfold segMatches
  rw [pC3_length, Finset.filter_true_of_mem, Finset.card_range]
  intro x hx
  unfold seKeyAt
  rw [if_pos (by rw [pC3_length]; exact Finset.mem_range.mp hx)]
  exact idsC3_key _

lemma segC3_bounds :
    (startEndKernel idsC3 pC3 1 128 0).1 = 0
      ∧ (startEndKernel idsC3 pC3 1 128 0).2 = 192 := by
  obtain ⟨hsub, hle⟩ := startEndKernel_sub idsC3 pC3 1 0 (by omega)
  have hend := segEnd_le_length idsC3 pC3 1 0 sortC3 (by omega)
  rw [segC3_card] at hsub
  rw [pC3_length] at hend
  omega

lemma seKeyC3_191 : seKeyAt idsC3 pC3 1 191 = 0 := by
  unfold seKeyAt
  rw [if_pos (by rw [pC3_length]; omega)]
  exact idsC3_key _

lemma nextPow2_64 : nextPow2 64 = 64 := by
  simp [nextPow2, cdiv]

/-! ### Claim theorems -/

/-- C1: for every valid input (flattened ids of length `Mtok*topk`, in-range and
per-token distinct expert ids, an argsort result satisfying the `torch.argsort`
contract, an autotune config per launch, default `expert_offset = 0`,
`num_experts = None`, `renormalize = False`), `fused_moe` equals — exactly, in
the exact-arithmetic embedding — the naive reference that, for each token and
each of its top-k slots, gathers the `w1` matrix of that expert, multiplies,
applies the gated activation, multiplies by the `w2` matrix of that expert,
scales by the gating weight of the slot, and sums over the top-k slots. -/
theorem c1_fused_moe_matches_naive (mc : MoeCall) (hv : MoeValid mc)
    (hren : mc.renormalize = false) :
    ∀ t < mc.Mtok, ∀ d < mc.D,
      fusedMoe mc t d
        = naiveMoe mc.topk mc.N2 mc.K mc.hidden mc.w1 mc.w2 mc.topkWeights
            mc.topkIds mc.actF t d := by
  intro t ht d hd
  rw [fusedMoe_eq_naive mc hv t d ht hd, hren]
  rfl

/-- C1 witness: the theorem applied to the concrete four-token call `mcW`. -/
theorem c1_witness :
    fusedMoe mcW 0 0
      = naiveMoe mcW.topk mcW.N2 mcW.K mcW.hidden mcW.w1 mcW.w2 mcW.topkWeights
          mcW.topkIds mcW.actF 0 0 :=
  c1_fused_moe_matches_naive mcW
    ⟨by decide, by decide, by decide, by decide, by decide, by decide, rfl, rfl⟩
    rfl 0 (by decide) 0 (by decide)

/-- C2: for every assignment sequence with ids below `E` and every argsort result
satisfying the `torch.argsort` contract, the permutation returned by
`_get_sorted_idx` is a bijection on `[0, L)`; for every expert `e < E` the
returned `[exp_start[e], exp_end[e])` range contains exactly the sorted positions
whose assigned expert is `e`; the ranges cover `[0, L)` exactly once; and an
expert with no assigned tokens gets `exp_start[e] = exp_end[e] = 0`. -/
theorem c2_sorted_idx_segments (ids : List Nat) (E : Nat)
    (argsortF : List Nat → List Nat)
    (hids : ∀ x ∈ ids, x < E) (hsorted : IsArgsortOf ids (argsortF ids)) :
    (∀ i < ids.length, ∃! j, j < (getSortedIdx ids E argsortF).1.length
        ∧ (getSortedIdx ids E argsortF).1.getD j 0 = i)
    ∧ (∀ e < E, ∀ j < ids.length,
        ((getSortedIdx ids E argsortF).2.1.getD e 0 ≤ j
          ∧ j < (getSortedIdx ids E argsortF).2.2.getD e 0)
        ↔ ids.getD ((getSortedIdx ids E argsortF).1.getD j 0) 0 = e)
    ∧ (∀ j < ids.length, ∃! e, e < E
        ∧ (getSortedIdx ids E argsortF).2.1.getD e 0 ≤ j
        ∧ j < (getSortedIdx ids E argsortF).2.2.getD e 0)
    ∧ (∀ e < E, (∀ i < ids.length, ids.getD i 0 ≠ e) →
        (getSortedIdx ids E argsortF).2.1.getD e 0 = 0
        ∧ (getSortedIdx ids E argsortF).2.2.getD e 0 = 0) := by
  obtain ⟨hperm, hsort⟩ := hsorted
  have hplen : (argsortF ids).length = ids.length := by simpa using hperm.length_eq
  have hp1 : (getSortedIdx ids E argsortF).1 = argsortF ids := rfl
  have htab : ∀ e < E,
      (getSortedIdx ids E argsortF).2.1.getD e 0
        = (startEndKernel ids (argsortF ids) E 128 e).1
      ∧ (getSortedIdx ids E argsortF).2.2.getD e 0
        = (startEndKernel ids (argsortF ids) E 128 e).2 := by
    intro e he
    exact getStartEnd_getD ids (argsortF ids) E e he
  have hkeyeq : ∀ j < ids.length,
      seKeyAt ids (argsortF ids) E j = ids.getD ((argsortF ids).getD j 0) 0 := by
    intro j hj
    unfold seKeyAt keyOf
    rw [if_pos (by omega)]
  refine ⟨?_, ?_, ?_, ?_⟩
  · intro i hi
    rw [hp1]
    exact sortedIdx_bij ids (argsortF ids) hperm i hi
  · intro e he j hj
    obtain ⟨ht1, ht2⟩ := htab e he
    rw [hp1, ht1, ht2, ← hkeyeq j hj]
    exact segment_mem_iff ids (argsortF ids) E e hsort he (by omega)
  · intro j hj
    have hkeylt : seKeyAt ids (argsortF ids) E j < E :=
      seKeyAt_lt ids (argsortF ids) E hperm hids (by omega)
    refine ⟨seKeyAt ids (argsortF ids) E j, ⟨hkeylt, ?_⟩, ?_⟩
    · obtain ⟨ht1, ht2⟩ := htab _ hkeylt
      rw [ht1, ht2]
      exact (segment_mem_iff ids (argsortF ids) E _ hsort hkeylt (by omega)).mpr rfl
    · rintro e' ⟨he', hseg⟩
      obtain ⟨ht1, ht2⟩ := htab e' he'
      rw [ht1, ht2] at hseg
      exact ((segment_mem_iff ids (argsortF ids) E e' hsort he' (by omega)).mp hseg).symm
  · intro e he hnone
    obtain ⟨ht1, ht2⟩ := htab e he
    have hcard : (segMatches ids (argsortF ids) E e).card = 0 := by
      rw [Finset.card_eq_zero]
      unfold segMatches
      rw [Finset.filter_eq_empty_iff]
      intro j hjr
      rw [Finset.mem_range] at hjr
      rw [hkeyeq j (by omega)]
      exact hnone _ (sortedIdx_getD_lt ids (argsortF ids) hperm hjr)
    have hz := segment_empty_zero ids (argsortF ids) E e he hcard
    rw [ht1, ht2, hz]
    exact ⟨rfl, rfl⟩

/-- C2 witness: the theorem applied to a concrete assignment list. -/
theorem c2_witness :
    (∀ i < ([0, 1, 1, 0] : List Nat).length,
      ∃! j, j < (getSortedIdx [0, 1, 1, 0] 3 (fun _ => [0, 3, 1, 2])).1.length
        ∧ (getSortedIdx [0, 1, 1, 0] 3 (fun _ => [0, 3, 1, 2])).1.getD j 0 = i)
    ∧ (∀ e < 3, ∀ j < ([0, 1, 1, 0] : List Nat).length,
        ((getSortedIdx [0, 1, 1, 0] 3 (fun _ => [0, 3, 1, 2])).2.1.getD e 0 ≤ j
          ∧ j < (getSortedIdx [0, 1, 1, 0] 3 (fun _ => [0, 3, 1, 2])).2.2.getD e 0)
        ↔ ([0, 1, 1, 0] : List Nat).getD
            ((getSortedIdx [0, 1, 1, 0] 3 (fun _ => [0, 3, 1, 2])).1.getD j 0) 0 = e)
    ∧ (∀ j < ([0, 1, 1, 0] : List Nat).length, ∃! e, e < 3
        ∧ (getSortedIdx [0, 1, 1, 0] 3 (fun _ => [0, 3, 1, 2])).2.1.getD e 0 ≤ j
        ∧ j < (getSortedIdx [0, 1, 1, 0] 3 (fun _ => [0, 3, 1, 2])).2.2.getD e 0)
    ∧ (∀ e < 3, (∀ i < ([0, 1, 1, 0] : List Nat).length,
          ([0, 1, 1, 0] : List Nat).getD i 0 ≠ e) →
        (getSortedIdx [0, 1, 1, 0] 3 (fun _ => [0, 3, 1, 2])).2.1.getD e 0 = 0
        ∧ (getSortedIdx [0, 1, 1, 0] 3 (fun _ => [0, 3, 1, 2])).2.2.getD e 0 = 0) :=
  c2_sorted_idx_segments [0, 1, 1, 0] 3 (fun _ => [0, 3, 1, 2]) (by decide) (by decide)

/-- C3: every launch of `fused_moe_kernel_launcher` uses
`M_NP2 = max(64, next_power_of_2(num_tokens))` and a grid of
`cdiv(M_NP2, BLOCK_SIZE_M) * cdiv(N, BLOCK_SIZE_N)` tiles per expert; with the
canonical sorted tables every cell of a segment row is stored exactly once
whenever the segment length fits in `M_NP2`; per-token-distinct expert ids
guarantee that every segment fits; rows whose offset inside their segment
reaches the covered range `cdiv(M_NP2, BLOCK_SIZE_M) * BLOCK_SIZE_M` are never
stored; and on a concrete overfull input (64 tokens, `top_k = 3`, all three
slots of every token naming expert 0, a 192-row segment against
`M_NP2 = max 64 (nextPow2 64) = 64`) the trailing row 191 is never stored. -/
theorem c3_row_tiles_write_once (args : KernelArgs) (cfg : KernelCfg) (ids : List Nat)
    (E numTokens : Nat) (C0 : Nat → Nat → ℚ) (j c : Nat)
    (hG : cfg.GROUP_SIZE_M = 1)
    (hBM : 0 < cfg.BLOCK_SIZE_M) (hBN : 0 < cfg.BLOCK_SIZE_N)
    (hperm : args.sortedIdx.Perm (List.range ids.length))
    (hsort : (args.sortedIdx.map (keyOf ids)).Sorted (· ≤ ·))
    (hoff : args.expertOffset = 0)
    (hst : args.expStart = (getStartEnd ids args.sortedIdx E).1)
    (hen : args.expEnd = (getStartEnd ids args.sortedIdx E).2)
    (hids : ∀ x ∈ ids, x < E)
    (hrcF : args.reindexC = false)
    (hdvd : cfg.BLOCK_SIZE_N ∣ args.N)
    (hj : j < args.sortedIdx.length) (hc : c < args.N) :
    fusedMoeKernelLauncher args cfg E numTokens C0
        = applyStores (launcherStores args cfg E (max 64 (nextPow2 numTokens))) C0
    ∧ launcherGrid0 cfg (max 64 (nextPow2 numTokens)) args.N
        = cdiv (max 64 (nextPow2 numTokens)) cfg.BLOCK_SIZE_M
            * cdiv args.N cfg.BLOCK_SIZE_N
    ∧ ((startEndKernel ids args.sortedIdx E 128 (seKeyAt ids args.sortedIdx E j)).2
          - (startEndKernel ids args.sortedIdx E 128 (seKeyAt ids args.sortedIdx E j)).1
          ≤ max 64 (nextPow2 numTokens) →
        storeCount (launcherStores args cfg E (max 64 (nextPow2 numTokens))) j c = 1)
    ∧ (∀ Mtok topk, ids.length = Mtok * topk → Mtok ≤ numTokens →
        (∀ t < Mtok, ∀ s1 < topk, ∀ s2 < topk, s1 ≠ s2 →
          ids.getD (t * topk + s1) 0 ≠ ids.getD (t * topk + s2) 0) →
        ∀ e < E, (startEndKernel ids args.sortedIdx E 128 e).2
            - (startEndKernel ids args.sortedIdx E 128 e).1
          ≤ max 64 (nextPow2 numTokens))
    ∧ (cdiv (max 64 (nextPow2 numTokens)) cfg.BLOCK_SIZE_M * cfg.BLOCK_SIZE_M
          ≤ j - (startEndKernel ids args.sortedIdx E 128
              (seKeyAt ids args.sortedIdx E j)).1 →
        storeCount (launcherStores args cfg E (max 64 (nextPow2 numTokens))) j c = 0)
    ∧ (startEndKernel idsC3 pC3 1 128 0).2 - (startEndKernel idsC3 pC3 1 128 0).1 = 192
    ∧ max 64 (nextPow2 64) = 64
    ∧ (∀ c2, storeCount (launcherStores argsC3 ⟨64, 128, 64, 1, 4, 4⟩ 1
        (max 64 (nextPow2 64))) 191 c2 = 0) := by
  have hkey : seKeyAt ids args.sortedIdx E j < E :=
    seKeyAt_lt ids args.sortedIdx E hperm hids hj
  have hjseg := (segment_mem_iff ids args.sortedIdx E
    (seKeyAt ids args.sortedIdx E j) hsort hkey hj).mpr rfl
  have hcap := le_cdiv_mul (max 64 (nextPow2 numTokens)) cfg.BLOCK_SIZE_M hBM
  refine ⟨rfl, rfl, ?fits, ?dist, ?trail, ?seg, ?np, ?conc⟩
  case fits =>
    intro hfits
    rw [launcher_storeCount args cfg ids E (max 64 (nextPow2 numTokens)) hG hBM hBN
      hperm hsort hoff hst hen hids hrcF hdvd j c hj hc]
    split
    · rfl
    · rename_i hlt
      exfalso
      apply hlt
      omega
  case dist =>
    intro Mtok topk hL hMle hdist e he
    obtain ⟨hsub2, hle2⟩ := startEndKernel_sub ids args.sortedIdx E e he
    have hcard := segCard_le_tokens ids args.sortedIdx E e Mtok topk hperm hL hdist
    have hnp2 := le_nextPow2 numTokens
    have hmax : nextPow2 numTokens ≤ max 64 (nextPow2 numTokens) := le_max_right _ _
    omega
  case trail =>
    intro htrail
    rw [launcher_storeCount args cfg ids E (max 64 (nextPow2 numTokens)) hG hBM hBN
      hperm hsort hoff hst hen hids hrcF hdvd j c hj hc]
    split
    · rename_i hlt
      exfalso
      omega
    · rfl
  case seg =>
    obtain ⟨h1, h2⟩ := segC3_bounds
    omega
  case np =>
    rw [nextPow2_64]
    exact max_self 64
  case conc =>
    intro c2
    by_cases hc2 : c2 < 128
    · rw [launcher_storeCount argsC3 ⟨64, 128, 64, 1, 4, 4⟩ idsC3 1
        (max 64 (nextPow2 64)) rfl (by decide) (by decide) permC3 sortC3 rfl rfl rfl
        idsC3_lt rfl (by decide) 191 c2
        (by rw [show argsC3.sortedIdx = pC3 from rfl, pC3_length]; omega) hc2]
      rw [show argsC3.sortedIdx = pC3 from rfl, seKeyC3_191, segC3_bounds.1]
      split
      · rename_i hlt
        rw [nextPow2_64] at hlt
        exact absurd hlt (by decide)
      · rfl
    · exact storeCount_col_ge argsC3 ⟨64, 128, 64, 1, 4, 4⟩ 1 (max 64 (nextPow2 64))
        191 c2 (by decide) (by rw [show argsC3.N = 128 from rfl]; omega)

/-- C3 witness: the theorem applied to the concrete overfull launch; its trailing
segment row 191 receives no store at column 0. -/
theorem c3_witness :
    storeCount (launcherStores argsC3 ⟨64, 128, 64, 1, 4, 4⟩ 1
      (max 64 (nextPow2 64))) 191 0 = 0 :=
  (c3_row_tiles_write_once argsC3 ⟨64, 128, 64, 1, 4, 4⟩ idsC3 1 64 (fun _ _ => 0) 0 0
    rfl (by decide) (by decide) permC3 sortC3 rfl rfl rfl idsC3_lt rfl (by decide)
    (by rw [show argsC3.sortedIdx = pC3 from rfl, pC3_length]; omega)
    (by decide)).2.2.2.2.2.2.2 0

/-- C4: the first kernel launch of `fused_moe` computes, at every segment
position, the gate/up projection with reindex-on-read enabled (input row
`sorted_idx[j] // top_k`), reindex-on-write disabled (segment-order output) and
no gating weight; the second launch computes, scattered to the original flat
row `sorted_idx[j]`, the down projection with reindex-on-read disabled, the
gating weight of that flat row applied, each row independent; and the final
output is the sum of the second buffer over the top-k axis. -/
theorem c4_two_pass_structure (mc : MoeCall) (hv : MoeValid mc) :
    (∀ j < mc.topkIds.length, ∀ n < 2 * mc.N2,
        moeCache1 mc j n
          = specGateUp mc.topkIds (moeSorted mc).1 mc.E mc.topk mc.K mc.hidden mc.w1 j n)
    ∧ (∀ j < mc.topkIds.length, ∀ d < mc.D,
        moeCache2 mc ((moeSorted mc).1.getD j 0) d
          = specDown mc.topkIds (moeSorted mc).1 mc.E mc.N2 (moeGate mc) mc.w2
              (moeTwFlat mc) j d)
    ∧ (∀ t d : Nat, fusedMoe mc t d
        = ∑ s ∈ Finset.range mc.topk, moeCache2 mc (t * mc.topk + s) d) :=
  ⟨fun j hj n hn => moeCache1_eq mc hv j n hj hn,
   fun j hj d hd => moeCache2_eq mc hv j d hj hd,
   fun _ _ => rfl⟩

/-- C4 witness: the theorem applied to the concrete four-token call `mcW`. -/
theorem c4_witness :
    (∀ j < mcW.topkIds.length, ∀ n < 2 * mcW.N2,
        moeCache1 mcW j n
          = specGateUp mcW.topkIds (moeSorted mcW).1 mcW.E mcW.topk mcW.K
              mcW.hidden mcW.w1 j n)
    ∧ (∀ j < mcW.topkIds.length, ∀ d < mcW.D,
        moeCache2 mcW ((moeSorted mcW).1.getD j 0) d
          = specDown mcW.topkIds (moeSorted mcW).1 mcW.E mcW.N2 (moeGate mcW) mcW.w2
              (moeTwFlat mcW) j d)
    ∧ (∀ t d : Nat, fusedMoe mcW t d
        = ∑ s ∈ Finset.range mcW.topk, moeCache2 mcW (t * mcW.topk + s) d) :=
  c4_two_pass_structure mcW
    ⟨by decide, by decide, by decide, by decide, by decide, by decide, rfl, rfl⟩

/-- C5 counterexample: `torch.argsort` is called without `stable=True`, so any
key-sorting permutation satisfies its contract.  For `topk_ids = [0, 0]` the
contract-compliant result `[1, 0]` violates the claimed tie-break
(`sorted_idx[0] < sorted_idx[1]` fails for the equal keys at positions `0 < 1`),
and `[0, 1]` is compliant as well, so the output is not determined either. -/
theorem c5_counterexample :
    IsArgsortOf [0, 0] ((getSortedIdx [0, 0] 1 (fun _ => [1, 0])).1)
    ∧ ¬ ((getSortedIdx [0, 0] 1 (fun _ => [1, 0])).1.getD 0 0
          < (getSortedIdx [0, 0] 1 (fun _ => [1, 0])).1.getD 1 0)
    ∧ IsArgsortOf [0, 0] ((getSortedIdx [0, 0] 1 (fun _ => [0, 1])).1)
    ∧ (getSortedIdx [0, 0] 1 (fun _ => [1, 0])).1
        ≠ (getSortedIdx [0, 0] 1 (fun _ => [0, 1])).1 := by
  refine ⟨by decide, by decide, by decide, by decide⟩

/-- C5 (amended): the permutation returned by `_get_sorted_idx` is ascending by
assigned expert id and is a bijection on `[0, L)`, for every argsort result
satisfying the `torch.argsort` contract; the tie order among equal expert ids
(and hence exact reproducibility) is not guaranteed, since `stable=True` is not
requested. -/
theorem c5_amended_sorted_bijection (ids : List Nat) (E : Nat)
    (argsortF : List Nat → List Nat) (hsorted : IsArgsortOf ids (argsortF ids)) :
    (∀ j1 j2 : Nat, j1 ≤ j2 → j2 < (getSortedIdx ids E argsortF).1.length →
      ids.getD ((getSortedIdx ids E argsortF).1.getD j1 0) 0
        ≤ ids.getD ((getSortedIdx ids E argsortF).1.getD j2 0) 0)
    ∧ (∀ i < ids.length, ∃! j, j < (getSortedIdx ids E argsortF).1.length
        ∧ (getSortedIdx ids E argsortF).1.getD j 0 = i) := by
  obtain ⟨hperm, hsort⟩ := hsorted
  have hp1 : (getSortedIdx ids E argsortF).1 = argsortF ids := rfl
  rw [hp1]
  constructor
  · intro j1 j2 h12 h2
    have hmono := seKeyAt_mono ids (argsortF ids) E hsort h12 h2
    unfold seKeyAt keyOf at hmono
    rw [if_pos (by omega), if_pos (by omega)] at hmono
    exact hmono
  · intro i hi
    exact sortedIdx_bij ids (argsortF ids) hperm i hi

/-- C5 witness: the amended theorem applied to a concrete assignment list. -/
theorem c5_witness :
    (∀ j1 j2 : Nat, j1 ≤ j2 → j2 < (getSortedIdx [0, 1, 0] 2 (fun _ => [0, 2, 1])).1.length →
      ([0, 1, 0] : List Nat).getD
          ((getSortedIdx [0, 1, 0] 2 (fun _ => [0, 2, 1])).1.getD j1 0) 0
        ≤ ([0, 1, 0] : List Nat).getD
            ((getSortedIdx [0, 1, 0] 2 (fun _ => [0, 2, 1])).1.getD j2 0) 0)
    ∧ (∀ i < ([0, 1, 0] : List Nat).length,
        ∃! j, j < (getSortedIdx [0, 1, 0] 2 (fun _ => [0, 2, 1])).1.length
          ∧ (getSortedIdx [0, 1, 0] 2 (fun _ => [0, 2, 1])).1.getD j 0 = i) :=
  c5_amended_sorted_bijection [0, 1, 0] 2 (fun _ => [0, 2, 1]) (by decide)

/-- C6: the initializer `fused_moe` uses for both intermediate buffers
(`_make_intermediate` with the `zeros = not (num_experts == E)` flag) produces an
all-zero buffer for every ambient junk content iff `num_experts != E`
(`num_experts` defaulting to `E` leaves both buffers uninitialized). -/
theorem c6_zero_fill_iff (E : Nat) (numExperts : Option Nat) :
    ((∀ junk : Nat → Nat → ℚ,
        makeIntermediate (moeZerosFlag E numExperts) junk = fun _ _ => 0)
      ↔ numExperts.getD E ≠ E)
    ∧ (∀ mc : MoeCall,
        moeCache1 mc
          = fusedMoeKernelLauncher (moeArgs1 mc) mc.cfg1 mc.E mc.Mtok
              (makeIntermediate (moeZerosFlag mc.E mc.numExperts) mc.junk1)
        ∧ moeCache2 mc
          = fusedMoeKernelLauncher (moeArgs2 mc) mc.cfg2 mc.E mc.Mtok
              (makeIntermediate (moeZerosFlag mc.E mc.numExperts) mc.junk2)) := by
  constructor
  · by_cases h : numExperts.getD E = E
    · constructor
      · intro hall
        have h1 := hall (fun _ _ => 1)
        have h2 : moeZerosFlag E numExperts = false := by
          unfold moeZerosFlag
          rw [h]
          simp
        rw [h2] at h1
        unfold makeIntermediate at h1
        rw [if_neg (by simp)] at h1
        have h3 := congrFun (congrFun h1 0) 0
        norm_num at h3
      · intro hne
        exact absurd h hne
    · constructor
      · intro _
        exact h
      · intro _ junk
        have h2 : moeZerosFlag E numExperts = true := by
          unfold moeZerosFlag
          simp [h]
        rw [h2]
        unfold makeIntermediate
        rw [if_pos rfl]
  · intro mc
    exact ⟨rfl, rfl⟩

/-- C7 counterexample: a call of `fused_moe` with `top_k = 0` (not positive) is
not rejected — no error is raised before or during the kernel launches, and the
call runs to completion, returning the all-zero output. -/
theorem c7_counterexample :
    fusedMoe
      { Mtok := 1, topk := 0, E := 1, N2 := 1, K := 1, D := 1,
        hidden := fun _ _ => 1, w1 := fun _ _ _ => 1, w2 := fun _ _ _ => 1,
        topkWeights := fun _ _ => 1, topkIds := [],
        expertOffset := 0, numExperts := none, renormalize := false,
        argsortF := fun _ => [], cfg1 := ⟨128, 128, 32, 1, 4, 4⟩,
        cfg2 := ⟨128, 128, 32, 1, 4, 4⟩, junk1 := fun _ _ => 1,
        junk2 := fun _ _ => 1, actF := fun g u => g * u }
      = fun _ _ => 0 := by
  funext t d
  show ∑ _s ∈ Finset.range 0, _ = 0
  simp

/-- C7 (amended): `fused_moe` performs no call-entry validation: a call with
`top_k = 0` (or any other configuration) is never rejected with a
`ConfigurationError`/`ShapeMismatchError`; with `top_k = 0` it completes and
returns the all-zero output whatever the other arguments are. -/
theorem c7_amended_no_validation (mc : MoeCall) (htk : mc.topk = 0) :
    fusedMoe mc = fun _ _ => 0 := by
  funext t d
  unfold fusedMoe
  rw [htk]
  simp

/-- C7 witness: the amended theorem applied to a concrete `top_k = 0` call. -/
theorem c7_witness :
    fusedMoe
      { Mtok := 2, topk := 0, E := 2, N2 := 1, K := 1, D := 1,
        hidden := fun _ _ => 3, w1 := fun _ _ _ => 4, w2 := fun _ _ _ => 5,
        topkWeights := fun _ _ => 1, topkIds := [],
        expertOffset := 0, numExperts := none, renormalize := true,
        argsortF := fun _ => [], cfg1 := ⟨64, 256, 32, 1, 4, 4⟩,
        cfg2 := ⟨64, 128, 64, 1, 4, 4⟩, junk1 := fun _ _ => 9,
        junk2 := fun _ _ => 9, actF := fun g u => g + u }
      = fun _ _ => 0 :=
  c7_amended_no_validation _ rfl

/-- C8: every store a `fused_moe_kernel` unit performs carries the value obtained
by accumulating the blocked dot product exactly over the whole `K` range (the
float32 accumulator of the model), multiplying — when gating is enabled — by the
gating weight loaded at the sorted flat index, and applying the single
storage-precision cast last. -/
theorem c8_accumulator_weight_cast (args : KernelArgs) (cfg : KernelCfg)
    (M_NP2 expId pid : Nat) (s : Nat × Nat × ℚ)
    (hBK : 0 < cfg.BLOCK_SIZE_K)
    (hs : s ∈ kernelUnit args cfg M_NP2 expId pid) :
    ∃ pos : Nat, s.1 = kuRow args pos
      ∧ s.2.2 = args.castStore
          ((if args.enableWeights then args.weights (args.sortedIdx.getD pos 0) else 1) *
            ∑ k ∈ Finset.range args.K,
              args.A (if args.reindexA then args.sortedIdx.getD pos 0 / args.topK else pos) k
                * args.B expId s.2.1 k) := by
  obtain ⟨i, hi, jc, hjc, h1, h2, h3, h4, hseq⟩ :=
    kernelUnit_store_shape args cfg M_NP2 expId pid s hs
  refine ⟨args.expStart.getD (expId + args.expertOffset) 0
    + (pidDecode cfg (cdiv M_NP2 cfg.BLOCK_SIZE_M) (cdiv args.N cfg.BLOCK_SIZE_N) pid).1
      * cfg.BLOCK_SIZE_M + i, ?_, ?_⟩
  · rw [hseq]
  · rw [hseq]
    show kuVal args cfg expId _ _ = _
    simp only [kuVal]
    rw [dotBlocks_eq _ _ _ _ hBK]
    by_cases hw : args.enableWeights
    · rw [if_pos hw, if_pos hw]
      ring_nf
    · rw [if_neg hw, if_neg hw]
      rw [one_mul]

/-- C8 witness: the theorem applied to a concrete one-element unit. -/
theorem c8_witness :
    ∃ pos : Nat, ((0, 0, (2 : ℚ)) : Nat × Nat × ℚ).1 = kuRow argsW pos
      ∧ ((0, 0, (2 : ℚ)) : Nat × Nat × ℚ).2.2 = argsW.castStore
          ((if argsW.enableWeights then argsW.weights (argsW.sortedIdx.getD pos 0) else 1) *
            ∑ k ∈ Finset.range argsW.K,
              argsW.A (if argsW.reindexA then argsW.sortedIdx.getD pos 0 / argsW.topK else pos) k
                * argsW.B 0 ((0, 0, (2 : ℚ)) : Nat × Nat × ℚ).2.1 k) :=
  c8_accumulator_weight_cast argsW ⟨1, 1, 1, 1, 1, 1⟩ 1 0 0 (0, 0, (2 : ℚ))
    (by decide)
    (by simp [kernelUnit, argsW, pidDecode, cdiv, dotBlocks, Finset.sum_range_succ,
          List.range_succ])

/-- C9: a `fused_moe_kernel` unit whose expert segment is empty
(`exp_end - exp_start <= 0` at index `expert + expert_offset`) returns right
after loading the two segment bounds: it performs no `sorted_idx`, `A`, `B` or
`Weights` loads, performs no stores, and leaves all destination memory
unchanged. -/
theorem c9_empty_segment_frame (args : KernelArgs) (cfg : KernelCfg)
    (M_NP2 expId pid : Nat)
    (h : args.expEnd.getD (expId + args.expertOffset) 0
      ≤ args.expStart.getD (expId + args.expertOffset) 0) :
    kernelUnit args cfg M_NP2 expId pid = []
    ∧ kernelUnitLoads args cfg M_NP2 expId pid
        = [KLoad.start (expId + args.expertOffset), KLoad.stop (expId + args.expertOffset)]
    ∧ ∀ C : Nat → Nat → ℚ, applyStores (kernelUnit args cfg M_NP2 expId pid) C = C := by
  have hle : ((args.expEnd.getD (expId + args.expertOffset) 0 : Int)
      - (args.expStart.getD (expId + args.expertOffset) 0 : Int)) ≤ 0 := by
    omega
  refine ⟨?_, ?_, ?_⟩
  · unfold kernelUnit
    rw [if_pos hle]
  · simp only [kernelUnitLoads]
    rw [if_pos hle, List.append_nil]
  · intro C
    unfold kernelUnit
    rw [if_pos hle]
    rfl

/-- C9 witness: the theorem applied to a concrete malformed (`end < start`)
segment. -/
theorem c9_witness :
    kernelUnit argsW2 ⟨1, 1, 1, 1, 1, 1⟩ 1 0 0 = []
    ∧ kernelUnitLoads argsW2 ⟨1, 1, 1, 1, 1, 1⟩ 1 0 0 = [KLoad.start 0, KLoad.stop 0]
    ∧ ∀ C : Nat → Nat → ℚ,
        applyStores (kernelUnit argsW2 ⟨1, 1, 1, 1, 1, 1⟩ 1 0 0) C = C := by
  have h := c9_empty_segment_frame argsW2 ⟨1, 1, 1, 1, 1, 1⟩ 1 0 0 (by decide)
  exact h

/-- C10: `_renormalize` with `renormalize=True` is idempotent on every weight
tensor whose per-token rows have nonzero sum: after one application each row of
top-k weights sums to 1, so the second division divides by 1. -/
theorem c10_renormalize_idempotent (tw : Nat → Nat → ℚ) (topk : Nat)
    (hsum : ∀ t, (∑ j ∈ Finset.range topk, tw t j) ≠ 0) :
    renormalizeW (renormalizeW tw topk true) topk true
      = renormalizeW tw topk true := by
  unfold renormalizeW
  simp only [if_pos]
  funext t s
  have h1 : (∑ j ∈ Finset.range topk, tw t j / ∑ j2 ∈ Finset.range topk, tw t j2) = 1 := by
    rw [← Finset.sum_div]
    exact div_self (hsum t)
  rw [h1, div_one]

/-- C10 witness: the theorem applied to a concrete weight tensor. -/
theorem c10_witness :
    renormalizeW (renormalizeW (fun _ _ => (1 : ℚ)) 2 true) 2 true
      = renormalizeW (fun _ _ => (1 : ℚ)) 2 true :=
  c10_renormalize_idempotent (fun _ _ => (1 : ℚ)) 2
    (by intro t; simp [Finset.sum_range_succ])

end FusedMoE
